import Mathlib

/-
Verification of the SzurubooruCompanion job pipeline.

Shallow Lean embedding of the backend code:
  * app/workers/processor.py   (worker pipeline, claim, complete, fail)
  * app/api/jobs.py            (single and bulk control operations)
  * app/api/events.py          (publish_job_update signature)
  * app/services/szurubooru.py (tag cache, ensure_tag)
  * app/services/tagger.py     (WD14 tagging, video frame aggregation)

Timestamps are modelled as integers (epoch seconds), configuration
fractions as rationals, database rows as records, and fallible endpoint
handlers as Except values carrying the HTTP status code of the raised
HTTPException.
-/

-- ---------------------------------------------------------------------------
-- Data model (app/database.py)
-- ---------------------------------------------------------------------------

/-- JobStatus enum from app/database.py. -/
inductive JobStatus where
  | pending
  | downloading
  | tagging
  | uploading
  | completed
  | merged
  | failed
  | paused
  | stopped
deriving DecidableEq, Repr

/-- The fields of the jobs table that the verified operations read or write. -/
structure JobRow where
  id : Nat
  status : JobStatus
  szuruUser : String
  safety : String
  sourceOverride : Option String
  retryCount : Nat
  errorMessage : Option String
  szuruPostId : Option Nat
  relatedPostIds : List Nat
  wasMerge : Bool
  tagsApplied : List String
  tagsFromSource : List String
  tagsFromAi : List String
  createdAt : Int
  updatedAt : Int
deriving DecidableEq, Repr

deriving instance DecidableEq for Except

-- ---------------------------------------------------------------------------
-- Worker finalisation (app/workers/processor.py)
-- ---------------------------------------------------------------------------

/-- One entry of the created_posts list built by _process_job: the remote
post id plus the per-media tag lists, and whether the media was merged
into an existing post. -/
structure CreatedPost where
  postId : Nat
  merged : Bool
  tags : List String
  tagsFromSource : List String
  tagsFromAi : List String
deriving DecidableEq, Repr

/-- The database commit of _fail_job (processor.py): status FAILED, error
message truncated to 4000 characters, updated_at set to now.  No other
field of the row is touched. -/
def failJob (job : JobRow) (error : String) (now : Int) : JobRow :=
  { job with
    status := JobStatus.failed
    errorMessage := some (error.take 4000)
    updatedAt := now }

/-- The database commit of _complete_job (processor.py): status MERGED or
COMPLETED, primary post id, related post ids from the remaining posts,
merge flag, tag bookkeeping, stored sources, updated_at set to now. -/
def completeJobDb (job : JobRow) (primary : CreatedPost) (rest : List CreatedPost)
    (storedSources : Option String) (now : Int) : JobRow :=
  { job with
    status := if primary.merged then JobStatus.merged else JobStatus.completed
    szuruPostId := some primary.postId
    relatedPostIds := rest.map CreatedPost.postId
    wasMerge := primary.merged
    tagsApplied := primary.tags
    tagsFromSource := primary.tagsFromSource
    tagsFromAi := primary.tagsFromAi
    sourceOverride :=
      match storedSources with
      | some s => some s
      | none => job.sourceOverride
    updatedAt := now }

/-- Parameter names of publish_job_update (app/api/events.py, def at line
175): every parameter other than job_id and status has a default. -/
def publishJobUpdateParams : List String :=
  ["job_id", "status", "progress", "error", "szuru_post_id", "tags"]

/-- Keyword-argument names used by the publish_job_update call at the end
of _complete_job (processor.py lines 755-761). -/
def completeJobPublishKwargs : List String :=
  ["job_id", "status", "szuru_post_id", "tags", "was_merge"]

/-- Python call semantics: a call written with keyword arguments raises
TypeError before the callee runs unless every keyword names a parameter. -/
def pyKwargsAccepted (params kwargs : List String) : Bool :=
  kwargs.all (fun k => params.contains k)

/-- The finalisation tail of _process_job (processor.py lines 494-529):
with created posts, run _complete_job (commit, then the publish call);
if that call raises, the surrounding except handler runs _fail_job.
With no created posts, _fail_job runs directly.  The result records the
sequence of statuses committed to the row, in order, plus the final row. -/
def processJobFinalize (job : JobRow) (createdPosts : List CreatedPost)
    (lastError : Option String) (storedSources : Option String) (now : Int) :
    List JobStatus × JobRow :=
  match createdPosts with
  | [] =>
    match lastError with
    | some e => ([JobStatus.failed], failJob job e now)
    | none => ([JobStatus.failed], failJob job "No posts created." now)
  | primary :: rest =>
    let committed := completeJobDb job primary rest storedSources now
    if pyKwargsAccepted publishJobUpdateParams completeJobPublishKwargs then
      ([committed.status], committed)
    else
      ([committed.status, JobStatus.failed],
        failJob committed
          "publish_job_update() got an unexpected keyword argument was_merge" now)

-- ---------------------------------------------------------------------------
-- Single-job control operations (app/api/jobs.py)
-- ---------------------------------------------------------------------------

/-- Statuses from which pause_job is accepted. -/
def pauseAllowedStatuses : List JobStatus :=
  [JobStatus.downloading, JobStatus.tagging, JobStatus.uploading]

/-- Terminal statuses rejected by stop_job. -/
def terminalStatuses : List JobStatus :=
  [JobStatus.completed, JobStatus.merged, JobStatus.failed]

/-- Statuses from which resume_job is accepted. -/
def resumeAllowedStatuses : List JobStatus :=
  [JobStatus.paused, JobStatus.stopped]

/-- Ownership test used by retry_job (jobs.py line 801) and by the bulk
helpers: the check is skipped when the caller has a falsy szuru_username
(modelled as none), and blocks when the usernames differ. -/
def callerBlocks (caller : Option String) (job : JobRow) : Bool :=
  match caller with
  | none => false
  | some u => u != job.szuruUser

/-- pause_job (jobs.py lines 675-706).  The handler looks the row up,
rejects 404 when absent and 400 outside downloading, tagging, uploading,
then commits status PAUSED.  The caller identity is never consulted. -/
def pauseJob (row : Option JobRow) (_caller : Option String) (now : Int) :
    Except Nat JobRow :=
  match row with
  | none => Except.error 404
  | some job =>
    if pauseAllowedStatuses.contains job.status then
      Except.ok { job with status := JobStatus.paused, updatedAt := now }
    else Except.error 400

/-- stop_job (jobs.py lines 709-740): 404 when absent, 400 on a terminal
status, otherwise commits STOPPED.  The caller identity is never consulted. -/
def stopJob (row : Option JobRow) (_caller : Option String) (now : Int) :
    Except Nat JobRow :=
  match row with
  | none => Except.error 404
  | some job =>
    if terminalStatuses.contains job.status then Except.error 400
    else Except.ok { job with status := JobStatus.stopped, updatedAt := now }

/-- resume_job (jobs.py lines 842-873): 404 when absent, 400 outside
paused or stopped, otherwise commits PENDING.  The caller identity is
never consulted. -/
def resumeJob (row : Option JobRow) (_caller : Option String) (now : Int) :
    Except Nat JobRow :=
  match row with
  | none => Except.error 404
  | some job =>
    if resumeAllowedStatuses.contains job.status then
      Except.ok { job with status := JobStatus.pending, updatedAt := now }
    else Except.error 400

/-- start_job (jobs.py lines 645-672): 404 when absent, 400 unless
pending; on success only an event is published, the row is unchanged.
The caller identity is never consulted. -/
def startJob (row : Option JobRow) (_caller : Option String) :
    Except Nat JobRow :=
  match row with
  | none => Except.error 404
  | some job =>
    if job.status = JobStatus.pending then Except.ok job
    else Except.error 400

/-- delete_job (jobs.py lines 743-770): 404 when absent, otherwise the
row is deleted unconditionally.  The caller identity is never consulted. -/
def deleteJob (row : Option JobRow) (_caller : Option String) :
    Except Nat Unit :=
  match row with
  | none => Except.error 404
  | some _ => Except.ok ()

/-- retry_job (jobs.py lines 773-840): 404 when absent, 400 unless
FAILED, 403 when the owner check blocks; otherwise the error message is
cleared, retry_count reset to 0, updated_at set to now, and the status
committed FAILED (delayed requeue scheduled) when retry_delay > 0 or
PENDING immediately otherwise. -/
def retryJob (row : Option JobRow) (caller : Option String)
    (retryDelay : ℚ) (now : Int) : Except Nat JobRow :=
  match row with
  | none => Except.error 404
  | some job =>
    if job.status ≠ JobStatus.failed then Except.error 400
    else if callerBlocks caller job then Except.error 403
    else
      let j := { job with
        errorMessage := none
        retryCount := 0
        updatedAt := now }
      if 0 < retryDelay then Except.ok { j with status := JobStatus.failed }
      else Except.ok { j with status := JobStatus.pending }

/-- The _delayed_retry task nested in retry_job (jobs.py lines 817-828)
and, with identical logic, in _bg_bulk_retry (lines 434-445): after the
sleep it re-reads the row and returns without acting unless the row still
exists with status FAILED; otherwise it commits status PENDING.  It reads
no other field of the row.  none models the task not acting. -/
def delayedRetry (rowAtWake : Option JobRow) (now : Int) : Option JobRow :=
  match rowAtWake with
  | none => none
  | some j =>
    if j.status ≠ JobStatus.failed then none
    else some { j with status := JobStatus.pending, updatedAt := now }

-- ---------------------------------------------------------------------------
-- Concrete rows used by the closed evaluation theorems
-- ---------------------------------------------------------------------------

/-- A job row being processed by a worker (status downloading, owner alice). -/
def jobRowA : JobRow :=
  { id := 1
    status := JobStatus.downloading
    szuruUser := "alice"
    safety := "safe"
    sourceOverride := none
    retryCount := 0
    errorMessage := none
    szuruPostId := none
    relatedPostIds := []
    wasMerge := false
    tagsApplied := []
    tagsFromSource := []
    tagsFromAi := []
    createdAt := 0
    updatedAt := 0 }

/-- A failed job row owned by alice. -/
def jobRowFailed : JobRow :=
  { jobRowA with status := JobStatus.failed, errorMessage := some "boom" }

/-- The row committed by retry_job on jobRowFailed with retry_delay 5 at
time 3: error cleared, retry_count 0, still FAILED while the delayed
requeue is pending. -/
def jobRowScheduled : JobRow :=
  { jobRowFailed with
    errorMessage := none
    retryCount := 0
    updatedAt := 3
    status := JobStatus.failed }

/-- The same row as seen by the delayed task at wake-up, after its
retry_count changed (to 7) in the meantime. -/
def jobRowWake : JobRow :=
  { jobRowScheduled with retryCount := 7 }

/-- A created post with remote id 17, produced by the merge branch. -/
def createdPost17 : CreatedPost :=
  { postId := 17, merged := true, tags := ["red"], tagsFromSource := ["red"],
    tagsFromAi := [] }

/-- A created post with remote id 101. -/
def createdPost101 : CreatedPost :=
  { postId := 101, merged := false, tags := ["red"], tagsFromSource := ["red"],
    tagsFromAi := [] }

/-- A created post with remote id 102. -/
def createdPost102 : CreatedPost :=
  { postId := 102, merged := false, tags := ["red"], tagsFromSource := ["red"],
    tagsFromAi := [] }

-- ---------------------------------------------------------------------------
-- Tag assembly: dedup and the tagme sentinel (processor.py lines 365-381)
-- ---------------------------------------------------------------------------

/-- Character-list form of Python str.strip(): drop whitespace from both
ends. -/
def stripChars (l : List Char) : List Char :=
  ((l.dropWhile Char.isWhitespace).reverse.dropWhile Char.isWhitespace).reverse

/-- Python str.strip(), modelled over the character list of the string. -/
def pyStrip (s : String) : String :=
  String.mk (stripChars s.toList)

/-- Python str.lower(), modelled as a per-character map so that it
evaluates inside the kernel. -/
def pyLower (s : String) : String :=
  String.mk (s.toList.map Char.toLower)

/-- Python str.replace(" ", "_"): the pattern is a single character, so
the call is a per-character map. -/
def pyReplaceSpace (s : String) : String :=
  String.mk (s.toList.map (fun c => if c = ' ' then '_' else c))

/-- The dedup loop of _process_job: walk the tag list keeping the stripped
first occurrence of each case-insensitive key, skipping keys already seen
and tags that strip to the empty string. -/
def dedupTagsGo : List String → List String → List String
  | [], _ => []
  | t :: ts, seen =>
    let key := pyLower (pyStrip t)
    if key ≠ "" ∧ key ∉ seen then
      pyStrip t :: dedupTagsGo ts (key :: seen)
    else dedupTagsGo ts seen

/-- Entry point of the dedup loop with an empty seen set. -/
def dedupTags (allTags : List String) : List String :=
  dedupTagsGo allTags []

/-- The tagme block of _process_job: substitute the sentinel when the
deduplicated list is empty, otherwise drop tagme, re-substituting when
nothing remains. -/
def uploadTagsFinal (allTags : List String) : List String :=
  let u := dedupTags allTags
  if u = [] then ["tagme"]
  else
    let r := u.filter (fun t => pyLower (pyStrip t) != "tagme")
    if r = [] then ["tagme"] else r

-- ---------------------------------------------------------------------------
-- Tag cache and ensure_tag (app/services/szurubooru.py)
-- ---------------------------------------------------------------------------

/-- 30-day TTL constant from szurubooru.py line 147. -/
def TAG_CACHE_TTL_SECONDS : Int := 30 * 24 * 3600

/-- In-memory cache entry: lowercased category and verification time. -/
structure TagCacheEntry where
  category : String
  verifiedAt : Int
deriving DecidableEq, Repr

/-- The _tag_cache dict, keyed by the lowercased tag name. -/
abbrev TagCacheMap := List (String × TagCacheEntry)

/-- Dict lookup. -/
def cacheLookup (c : TagCacheMap) (key : String) : Option TagCacheEntry :=
  match c.find? (fun p => p.1 == key) with
  | some p => some p.2
  | none => none

/-- Dict assignment: the new binding shadows and removes any old one. -/
def cacheInsert (c : TagCacheMap) (key : String) (e : TagCacheEntry) : TagCacheMap :=
  (key, e) :: c.filter (fun p => p.1 != key)

/-- _cache_tag (szurubooru.py lines 200-205): store the lowercased
category under the lowercased name with verified_at = time.time(). -/
def cacheTag (c : TagCacheMap) (tagName category : String) (now : Int) : TagCacheMap :=
  cacheInsert c (pyLower tagName) { category := pyLower category, verifiedAt := now }

/-- Outcome of the POST /api/tags create request. -/
inductive CreateOutcome where
  | ok
  | alreadyExists
  | otherError
deriving DecidableEq, Repr

/-- The tag resource returned by _get_tag_by_name: its category field (a
string, possibly absent) and its version (possibly absent). -/
structure ExistingTag where
  category : Option String
  version : Option Nat
deriving DecidableEq, Repr

/-- Remote responses seen by one ensure_tag run.  putOk is the outcome of
the category-update PUT; ensure_tag ignores it for its return value. -/
structure RemoteEnv where
  create : CreateOutcome
  getTag : Option ExistingTag
  putOk : Bool
deriving DecidableEq, Repr

/-- Result of one ensure_tag run: the returned boolean, the in-memory
cache afterwards, and how many Szurubooru API calls were made. -/
structure EnsureResult where
  success : Bool
  cache : TagCacheMap
  remoteCalls : Nat
deriving DecidableEq, Repr

/-- ensure_tag (szurubooru.py lines 280-358), with the remote responses
supplied by env and time.time() supplied as now.  The persistent upsert
(_update_tag_cache_db) touches the database, not the Szurubooru API, and
never changes the in-memory cache, so it is not modelled.  The fresh-hit
test of lines 291-295 is split out as ensureFresh. -/
def ensureFresh (cache : TagCacheMap) (now : Int) (tagName category : String) : Bool :=
  match cacheLookup cache (pyLower tagName) with
  | some entry =>
    entry.category == pyLower category
      && decide (now - entry.verifiedAt < TAG_CACHE_TTL_SECONDS)
  | none => false

def ensureTag (cache : TagCacheMap) (env : RemoteEnv) (now : Int)
    (tagName category : String) : EnsureResult :=
  if ensureFresh cache now tagName category then
    { success := true, cache := cache, remoteCalls := 0 }
  else
    match env.create with
    | CreateOutcome.ok =>
      { success := true, cache := cacheTag cache tagName category now, remoteCalls := 1 }
    | CreateOutcome.otherError =>
      { success := false, cache := cache, remoteCalls := 1 }
    | CreateOutcome.alreadyExists =>
      match env.getTag with
      | none =>
        { success := true, cache := cacheTag cache tagName category now, remoteCalls := 2 }
      | some existing =>
        let currentCat := pyLower (pyStrip (existing.category.getD ""))
        if currentCat == pyLower category then
          { success := true, cache := cacheTag cache tagName category now, remoteCalls := 2 }
        else
          match existing.version with
          | none =>
            { success := true, cache := cacheTag cache tagName category now, remoteCalls := 2 }
          | some _ =>
            { success := true, cache := cacheTag cache tagName category now, remoteCalls := 3 }

-- ---------------------------------------------------------------------------
-- WD14 tagger (app/services/tagger.py)
-- ---------------------------------------------------------------------------

/-- TagResult dataclass (tagger.py lines 68-75). -/
structure TagResult where
  generalTags : List String
  characterTags : List String
  safety : String
deriving DecidableEq, Repr

/-- The dataclass defaults: empty tag lists and safety unsafe. -/
def emptyTagResult : TagResult :=
  { generalTags := [], characterTags := [], safety := "unsafe" }

/-- Characters matched by the confidence part of the regex in _clean_tag. -/
def confSuffixChar (c : Char) : Bool :=
  c.isDigit || c == '.'

/-- The re.sub of _clean_tag: remove a trailing parenthesised confidence,
with any preceding whitespace. -/
def stripConfSuffix (s : String) : String :=
  match s.toList.reverse with
  | ')' :: rest =>
    let ds := rest.takeWhile confSuffixChar
    if ds.isEmpty then s
    else
      match rest.drop ds.length with
      | '(' :: rest2 => String.mk (rest2.dropWhile Char.isWhitespace).reverse
      | _ => s
  | _ => s

/-- _clean_tag (tagger.py lines 145-149): strip the confidence suffix,
strip whitespace, spaces to underscores, drop single-character results. -/
def cleanTag (tag : String) : String :=
  let t := pyReplaceSpace (pyStrip (stripConfSuffix tag))
  if t.length > 1 then t else ""

/-- The three data dicts of a raw wdtagger result, as confidence lists. -/
structure RawTagData where
  generalTagData : List (String × ℚ)
  characterTagData : List (String × ℚ)
  ratingData : List (String × ℚ)
deriving DecidableEq, Repr

/-- Stable insertion used to model sorted(..., key=confidence,
reverse=True): an element moves before the first strictly smaller
confidence, so equal confidences keep their original order. -/
def insertByConfDesc (x : String × ℚ) : List (String × ℚ) → List (String × ℚ)
  | [] => [x]
  | y :: ys => if y.2 < x.2 then x :: y :: ys else y :: insertByConfDesc x ys

/-- Stable descending sort by confidence. -/
def sortByConfDesc (l : List (String × ℚ)) : List (String × ℚ) :=
  l.foldl (fun acc x => insertByConfDesc x acc) []

/-- The general-tag loop of _process_wdtagger_result: break when the
confidence drops below the threshold, skip once max_tags cleaned tags are
kept, and drop tags that clean to the empty string. -/
def wd14GeneralLoop (threshold : ℚ) (maxTags : Nat) :
    List (String × ℚ) → List String → List String
  | [], acc => acc
  | (tag, conf) :: rest, acc =>
    if conf < threshold then acc
    else if maxTags ≤ acc.length then wd14GeneralLoop threshold maxTags rest acc
    else
      let c := cleanTag tag
      if c ≠ "" then wd14GeneralLoop threshold maxTags rest (acc ++ [c])
      else wd14GeneralLoop threshold maxTags rest acc

/-- The character-tag loop of _process_wdtagger_result: keep every
cleaned tag whose confidence reaches the threshold, with no cap. -/
def wd14CharacterTags (threshold : ℚ) (items : List (String × ℚ)) : List String :=
  items.foldl
    (fun acc p =>
      if threshold ≤ p.2 then
        let c := cleanTag p.1
        if c ≠ "" then acc ++ [c] else acc
      else acc)
    []

/-- The best-rating fold of _process_wdtagger_result: start from
(general, 0) and replace only on a strictly larger confidence, so the
first maximum wins. -/
def bestRating (ratings : List (String × ℚ)) : String :=
  (ratings.foldl (fun best p => if best.2 < p.2 then p else best) ("general", 0)).1

/-- The safety assignment of _process_wdtagger_result: with no rating
data the dataclass default unsafe stands; otherwise explicit maps to
unsafe, questionable and sensitive to sketchy, anything else to safe. -/
def safetyFromRatings (ratings : List (String × ℚ)) : String :=
  if ratings.isEmpty then "unsafe"
  else
    let best := bestRating ratings
    if best = "explicit" then "unsafe"
    else if best = "questionable" ∨ best = "sensitive" then "sketchy"
    else "safe"

/-- _process_wdtagger_result (tagger.py lines 163-204). -/
def processWdtaggerResult (raw : RawTagData) (threshold : ℚ) (maxTags : Nat) :
    TagResult :=
  { generalTags :=
      if raw.generalTagData.isEmpty then []
      else wd14GeneralLoop threshold maxTags (sortByConfDesc raw.generalTagData) []
    characterTags :=
      if raw.characterTagData.isEmpty then []
      else wd14CharacterTags threshold raw.characterTagData
    safety := safetyFromRatings raw.ratingData }

/-- What one tag_image run can observe from its executor: a raised
exception (caught by the surrounding try), an empty or missing result
(the empty dict from the pool worker, or a None result), or a raw
wdtagger result. -/
inductive TagOutcome where
  | exception
  | noResult
  | result (raw : RawTagData)
deriving Repr

/-- Runtime environment of tag_image: the wd14_enabled setting, whether
the wdtagger import succeeded, and the executor outcome. -/
structure TaggerEnv where
  wd14Enabled : Bool
  wd14Available : Bool
  outcome : TagOutcome
deriving Repr

/-- tag_image (tagger.py lines 216-249): disabled, unavailable, failed or
empty runs all return the dataclass-default TagResult; otherwise the raw
result is post-processed.  Both executor paths reduce to the same shape. -/
def tagImage (env : TaggerEnv) (threshold : ℚ) (maxTags : Nat) : TagResult :=
  if !env.wd14Enabled then emptyTagResult
  else if !env.wd14Available then emptyTagResult
  else
    match env.outcome with
    | TagOutcome.exception => emptyTagResult
    | TagOutcome.noResult => emptyTagResult
    | TagOutcome.result raw => processWdtaggerResult raw threshold maxTags

/-- The safety adoption of _process_job for an image media item with
skip_tagging false (processor.py lines 294-345): safety starts as
job.safety with a falsy value replaced by unsafe, then the tagger result
overrides it whenever the tagger safety is non-empty. -/
def mediaImageSafety (jobSafety : String) (env : TaggerEnv)
    (threshold : ℚ) (maxTags : Nat) : String :=
  let s0 := if jobSafety = "" then "unsafe" else jobSafety
  let tr := tagImage env threshold maxTags
  if tr.safety ≠ "" then tr.safety else s0

-- ---------------------------------------------------------------------------
-- Video frame aggregation (tagger.py lines 356-404)
-- ---------------------------------------------------------------------------

/-- SAFETY_RANK dict with its .get default of 2. -/
def SAFETY_RANK (s : String) : Nat :=
  if s = "safe" then 0 else if s = "sketchy" then 1 else 2

/-- SAFETY_NAME dict with its .get default of unsafe. -/
def SAFETY_NAME (n : Nat) : String :=
  if n = 0 then "safe" else if n = 1 then "sketchy" else "unsafe"

/-- Keys of a Python dict built by repeated increments: the distinct
elements in order of first occurrence. -/
def firstOccurrencesGo : List String → List String → List String
  | [], _ => []
  | t :: ts, seen =>
    if t ∈ seen then firstOccurrencesGo ts seen
    else t :: firstOccurrencesGo ts (t :: seen)

/-- Distinct elements of a list in order of first occurrence. -/
def dictKeysInOrder (l : List String) : List String :=
  firstOccurrencesGo l []

/-- The list.sort key (-count, tag) as a boolean total preorder on
(tag, count) pairs: larger counts first, ties alphabetically. -/
def qualLE (a b : String × Nat) : Bool :=
  decide (b.2 < a.2) || (decide (a.2 = b.2) && decide (a.1 ≤ b.1))

/-- Insertion step of the qualified-tag sort. -/
def insertQual (x : String × Nat) : List (String × Nat) → List (String × Nat)
  | [] => [x]
  | y :: ys => if qualLE x y then x :: y :: ys else y :: insertQual x ys

/-- Insertion sort by qualLE; the Python sort agrees with it because the
keys (-count, tag) of distinct tags are distinct and totally ordered. -/
def sortQual : List (String × Nat) → List (String × Nat)
  | [] => []
  | x :: xs => insertQual x (sortQual xs)

/-- min_count = max(1, int(N * min_frame_ratio)); Python int() truncates
toward zero, which agrees with max 1 of the rational floor everywhere. -/
def aggMinCount (n : Nat) (minFrac : ℚ) : Nat :=
  max 1 (Int.toNat ⌊(n : ℚ) * minFrac⌋)

/-- Concatenation of the general tags of every frame; the occurrence
count of a tag in it is the value of the general_counts dict. -/
def aggAllGeneral (frameResults : List TagResult) : List String :=
  (frameResults.map TagResult.generalTags).flatten

/-- The qualified_general list: dict entries whose count reaches
min_count, as (tag, count) pairs in dict order. -/
def aggQualified (frameResults : List TagResult) (minFrac : ℚ) :
    List (String × Nat) :=
  ((dictKeysInOrder (aggAllGeneral frameResults)).filter
      (fun t => decide (aggMinCount frameResults.length minFrac
        ≤ (aggAllGeneral frameResults).count t))).map
    (fun t => (t, (aggAllGeneral frameResults).count t))

/-- The worst_safety fold: the maximum SAFETY_RANK across frames. -/
def aggWorst (frameResults : List TagResult) : Nat :=
  frameResults.foldl (fun w fr => max w (SAFETY_RANK fr.safety)) 0

/-- _aggregate_frame_tags (tagger.py lines 356-404).  The character set
is modelled in first-occurrence order; Python set iteration order is
unspecified and only membership is proved about it. -/
def aggregateFrameTags (frameResults : List TagResult) (minFrac : ℚ)
    (maxTags : Nat) : TagResult :=
  if frameResults.isEmpty then emptyTagResult
  else
    { generalTags :=
        ((sortQual (aggQualified frameResults minFrac)).take maxTags).map Prod.fst
      characterTags :=
        dictKeysInOrder (frameResults.map TagResult.characterTags).flatten
      safety := SAFETY_NAME (aggWorst frameResults) }

-- ---------------------------------------------------------------------------
-- Atomic claim with skip-locked rows (_claim_next_job, processor.py 175-193)
-- ---------------------------------------------------------------------------

/-- The columns of a job row read by the claim query. -/
structure QJob where
  id : Nat
  status : JobStatus
  createdAt : Nat
  updatedAt : Nat
deriving DecidableEq, Repr

/-- Database state seen by claim transactions: the rows plus the set of
row locks currently held by open transactions. -/
structure DBState where
  jobs : List QJob
  locked : List Nat
deriving DecidableEq, Repr

/-- Row filter of the claim query: status PENDING, and skip-locked
removes rows whose lock is held. -/
def claimCandidate (s : DBState) (j : QJob) : Bool :=
  j.status == JobStatus.pending && !(s.locked.contains j.id)

/-- ORDER BY created_at ASC LIMIT 1 over a candidate list. -/
def pickOldest : List QJob → Option QJob
  | [] => none
  | j :: js =>
    match pickOldest js with
    | none => some j
    | some b => if j.createdAt ≤ b.createdAt then some j else some b

/-- SELECT ... WHERE status = PENDING ORDER BY created_at ASC LIMIT 1
FOR UPDATE SKIP LOCKED. -/
def selectForUpdateSkipLocked (s : DBState) : Option QJob :=
  pickOldest (s.jobs.filter (claimCandidate s))

/-- Progress of one worker through its claim transaction: before the
select, holding the row lock between select and commit, or finished with
the claimed job id (none when no job was available). -/
inductive WorkerPhase where
  | idle
  | holding (jid : Nat)
  | done (res : Option Nat)
deriving DecidableEq, Repr

/-- The job id a worker has claimed or is in the course of claiming. -/
def workerClaim : WorkerPhase → Option Nat
  | WorkerPhase.idle => none
  | WorkerPhase.holding j => some j
  | WorkerPhase.done r => r

/-- Interleaved execution state of the worker pool: database, one phase
per worker, and a logical clock supplying now. -/
structure PoolState where
  db : DBState
  workers : List WorkerPhase
  clock : Nat
deriving DecidableEq, Repr

/-- The claimed job id of worker w, if any. -/
def claimAt (s : PoolState) (w : Nat) : Option Nat :=
  (s.workers.get? w).bind workerClaim

/-- The UPDATE of the claim transaction: the selected row becomes
DOWNLOADING with updated_at = now. -/
def commitDownloading (jobs : List QJob) (jid : Nat) (now : Nat) : List QJob :=
  jobs.map (fun j =>
    if j.id = jid then { j with status := JobStatus.downloading, updatedAt := now }
    else j)

/-- One scheduler step of worker w: an idle worker runs the locking
select (acquiring the row lock), a holding worker commits (releasing the
lock); other schedules only advance the clock. -/
def poolStep (s : PoolState) (w : Nat) : PoolState :=
  match s.workers.get? w with
  | some WorkerPhase.idle =>
    (match selectForUpdateSkipLocked s.db with
     | some j =>
       { db := { jobs := s.db.jobs, locked := j.id :: s.db.locked }
         workers := s.workers.set w (WorkerPhase.holding j.id)
         clock := s.clock + 1 }
     | none =>
       { s with
         workers := s.workers.set w (WorkerPhase.done none)
         clock := s.clock + 1 })
  | some (WorkerPhase.holding jid) =>
    { db := { jobs := commitDownloading s.db.jobs jid s.clock
              locked := s.db.locked.erase jid }
      workers := s.workers.set w (WorkerPhase.done (some jid))
      clock := s.clock + 1 }
  | some (WorkerPhase.done _) => { s with clock := s.clock + 1 }
  | none => { s with clock := s.clock + 1 }

/-- Run an arbitrary interleaving of worker steps. -/
def poolRun (s : PoolState) (sched : List Nat) : PoolState :=
  sched.foldl poolStep s

/-- Initial pool: the given rows, no locks, every worker idle. -/
def initPool (jobs : List QJob) (workerCount : Nat) : PoolState :=
  { db := { jobs := jobs, locked := [] }
    workers := List.replicate workerCount WorkerPhase.idle
    clock := 0 }

/-- Pool invariant: row ids are unique; no two workers claim the same
job; a held row is locked and still pending; a committed claim left its
row downloading. -/
def PoolInv (s : PoolState) : Prop :=
  (s.db.jobs.map QJob.id).Nodup
  ∧ (∀ i k n, i ≠ k → claimAt s i = some n → claimAt s k ≠ some n)
  ∧ (∀ i jid, s.workers.get? i = some (WorkerPhase.holding jid) →
      jid ∈ s.db.locked ∧ ∃ j ∈ s.db.jobs, j.id = jid ∧ j.status = JobStatus.pending)
  ∧ (∀ i jid, s.workers.get? i = some (WorkerPhase.done (some jid)) →
      ∃ j ∈ s.db.jobs, j.id = jid ∧ j.status = JobStatus.downloading)

/-- Two pending rows used by the concrete claim-exclusivity witness. -/
def qjobsTwo : List QJob :=
  [{ id := 1, status := JobStatus.pending, createdAt := 0, updatedAt := 0 },
   { id := 2, status := JobStatus.pending, createdAt := 1, updatedAt := 0 }]

/-- Five single-tag frame results used by the aggregation theorems: the
tag a appears in exactly one of the five frames. -/
def frameResultsFive : List TagResult :=
  [{ generalTags := ["a"], characterTags := [], safety := "safe" },
   { generalTags := ["b"], characterTags := [], safety := "safe" },
   { generalTags := ["b"], characterTags := [], safety := "safe" },
   { generalTags := ["b"], characterTags := [], safety := "safe" },
   { generalTags := ["b"], characterTags := [], safety := "safe" }]

/-- A tag list with a case-insensitive duplicate, a tagme variant and a
real tag, used by the dedup witness. -/
def tagListSample : List String :=
  ["Red", " red ", "TAGME", "b"]

/-- A raw wdtagger result with one confident general tag and a general
rating, used by the tagger witness. -/
def rawTagDataSample : RawTagData :=
  { generalTagData := [("cat", 9/10)]
    characterTagData := []
    ratingData := [("general", 9/10)] }

/-- Tagger environment with WD14 disabled. -/
def taggerEnvDisabled : TaggerEnv :=
  { wd14Enabled := false, wd14Available := true, outcome := TagOutcome.noResult }

/-- Remote environment whose create call succeeds. -/
def remoteEnvCreateOk : RemoteEnv :=
  { create := CreateOutcome.ok, getTag := none, putOk := true }

-- ---------------------------------------------------------------------------
-- Theorems
-- ---------------------------------------------------------------------------

/-- C1: terminal stickiness fails in the code.  Evaluating the
finalisation of a job that created one post: _complete_job commits
status COMPLETED, but its publish_job_update call passes the keyword
was_merge, which the function signature does not accept, so the call
raises TypeError after the commit; the except handler of _process_job
then runs _fail_job, committing status FAILED.  The committed status
sequence is [completed, failed] and the job ends FAILED. -/
theorem C1_completed_then_failed_eval :
    pyKwargsAccepted publishJobUpdateParams completeJobPublishKwargs = false
    ∧ (processJobFinalize jobRowA [createdPost101] none none 7).1
        = [JobStatus.completed, JobStatus.failed]
    ∧ (processJobFinalize jobRowA [createdPost101] none none 7).2.status
        = JobStatus.failed
    ∧ (processJobFinalize jobRowA [createdPost101] none none 7).2.szuruPostId
        = some 101 := by
  decide

/-- C2 counterexample: a failure does not strictly increase retry_count.
On a job with retry_count 0, _fail_job commits retry_count 0 again. -/
theorem C2_no_increment_counterexample :
    jobRowA.retryCount = 0
    ∧ (failJob jobRowA "unexpected failure" 5).retryCount = 0
    ∧ ¬ jobRowA.retryCount < (failJob jobRowA "unexpected failure" 5).retryCount := by
  decide

/-- C2 amended: the failure handler _fail_job leaves retry_count exactly
unchanged (so it never decreases it, and never increments it either); it
only commits status FAILED, the truncated error message, and updated_at. -/
theorem C2_fail_job_leaves_retry_count (job : JobRow) (e : String) (now : Int) :
    (failJob job e now).retryCount = job.retryCount
    ∧ (failJob job e now).status = JobStatus.failed
    ∧ (failJob job e now).errorMessage = some (e.take 4000)
    ∧ (failJob job e now).updatedAt = now :=
  ⟨rfl, rfl, rfl, rfl⟩

/-- C4 counterexample: pause_job performs no ownership check.  A caller
with owner key bob pauses a downloading job owned by alice: the call
succeeds and the job status changes, where the claim requires an error
and an unchanged job. -/
theorem C4_pause_ignores_ownership_counterexample :
    jobRowA.szuruUser = "alice"
    ∧ jobRowA.status = JobStatus.downloading
    ∧ pauseJob (some jobRowA) (some "bob") 10
        = Except.ok { jobRowA with status := JobStatus.paused, updatedAt := 10 } := by
  decide

/-- C4 amended: among the single-job control operations only retry_job
enforces ownership (a non-matching caller receives 403 and the row is
unchanged); start, pause, stop, resume and delete never consult the
caller identity, so their outcome is identical for every caller. -/
theorem C4_ownership_amended :
    (∀ (job : JobRow) (u : String) (delay : ℚ) (now : Int),
        job.status = JobStatus.failed → u ≠ job.szuruUser →
        retryJob (some job) (some u) delay now = Except.error 403)
    ∧ (∀ row c1 c2 now, pauseJob row c1 now = pauseJob row c2 now)
    ∧ (∀ row c1 c2 now, stopJob row c1 now = stopJob row c2 now)
    ∧ (∀ row c1 c2 now, resumeJob row c1 now = resumeJob row c2 now)
    ∧ (∀ row c1 c2, startJob row c1 = startJob row c2)
    ∧ (∀ row c1 c2, deleteJob row c1 = deleteJob row c2) := by
  refine ⟨?_, fun _ _ _ _ => rfl, fun _ _ _ _ => rfl, fun _ _ _ _ => rfl,
    fun _ _ _ => rfl, fun _ _ _ => rfl⟩
  intro job u delay now hs hu
  simp [retryJob, callerBlocks, hs, hu]

/-- C4 witness: the amended ownership theorem applied to a concrete
failed job owned by alice and the caller bob. -/
theorem C4_ownership_amended_witness :
    retryJob (some jobRowFailed) (some "bob") 0 3 = Except.error 403 :=
  C4_ownership_amended.1 jobRowFailed "bob" 0 3 (by decide) (by decide)

/-- C5 counterexample: the delayed requeue ignores retry_count.
retry_job schedules the delayed task with retry_count committed to 0; at
wake-up the row has retry_count 7 (changed since scheduling) and status
FAILED, and the task still requeues the job to PENDING. -/
theorem C5_ignores_retry_count_counterexample :
    retryJob (some jobRowFailed) (some "alice") 5 3 = Except.ok jobRowScheduled
    ∧ jobRowScheduled.retryCount = 0
    ∧ jobRowWake.retryCount = 7
    ∧ jobRowWake.status = JobStatus.failed
    ∧ delayedRetry (some jobRowWake) 9
        = some { jobRowWake with status := JobStatus.pending, updatedAt := 9 } := by
  decide

/-- C5 amended: the delayed task re-reads the row and requeues exactly
when the row still exists with status FAILED, committing status PENDING
with updated_at = now; it refuses whenever the status changed or the row
is gone, and it reads no other field (in particular not retry_count). -/
theorem C5_delayed_retry_guard_amended (row : JobRow) (now : Int) :
    (row.status = JobStatus.failed →
      delayedRetry (some row) now
        = some { row with status := JobStatus.pending, updatedAt := now })
    ∧ (row.status ≠ JobStatus.failed → delayedRetry (some row) now = none)
    ∧ delayedRetry none now = none := by
  refine ⟨?_, ?_, rfl⟩ <;> intro h <;> simp [delayedRetry, h]

/-- C5 witness: the amended guard applied to a concrete failed row. -/
theorem C5_delayed_retry_guard_amended_witness :
    delayedRetry (some jobRowWake) 9
      = some { jobRowWake with status := JobStatus.pending, updatedAt := 9 } :=
  (C5_delayed_retry_guard_amended jobRowWake 9).1 (by decide)

/-- C6 counterexample: when two media items resolve to the same remote
post (here both merge into post 17), _complete_job stores the primary id
inside related_post_ids. -/
theorem C6_self_relation_counterexample :
    (completeJobDb jobRowA createdPost17 [createdPost17] none 4).szuruPostId = some 17
    ∧ 17 ∈ (completeJobDb jobRowA createdPost17 [createdPost17] none 4).relatedPostIds := by
  decide

/-- C6 amended: whenever the created or merged post ids of a finalised
job are pairwise distinct, the stored related_post_ids never contain the
stored szuru_post_id. -/
theorem C6_self_relation_distinct (job : JobRow) (primary : CreatedPost)
    (rest : List CreatedPost) (stored : Option String) (now : Int)
    (h : ((primary :: rest).map CreatedPost.postId).Nodup) :
    ∀ pid, (completeJobDb job primary rest stored now).szuruPostId = some pid →
      pid ∉ (completeJobDb job primary rest stored now).relatedPostIds := by
  intro pid hpid
  have h2 : primary.postId ∉ rest.map CreatedPost.postId := by
    simp only [List.map_cons, List.nodup_cons] at h
    exact h.1
  simp only [completeJobDb, Option.some.injEq] at hpid
  simpa [completeJobDb, ← hpid] using h2

/-- C6 witness: the amended self-relation exclusion applied to a job
with two distinct created posts 101 and 102. -/
theorem C6_self_relation_distinct_witness :
    101 ∉ (completeJobDb jobRowA createdPost101 [createdPost102] none 4).relatedPostIds :=
  C6_self_relation_distinct jobRowA createdPost101 [createdPost102] none 4
    (by decide) 101 (by decide)

-- ---------------------------------------------------------------------------
-- C8: tag dedup and the tagme sentinel
-- ---------------------------------------------------------------------------

/-- The head of a dropWhile result never satisfies the predicate. -/
theorem dropWhile_head?_false (p : Char → Bool) :
    ∀ (l : List Char) (a : Char), (l.dropWhile p).head? = some a → p a = false := by
  intro l
  induction l with
  | nil => intro a h; simp [List.dropWhile] at h
  | cons b l ih =>
    intro a h
    by_cases hb : p b
    · rw [List.dropWhile_cons, if_pos hb] at h
      exact ih a h
    · rw [List.dropWhile_cons, if_neg hb] at h
      simp only [List.head?_cons, Option.some.injEq] at h
      rw [← h]
      simpa using hb

/-- A list whose head fails the predicate is unchanged by dropWhile. -/
theorem dropWhile_eq_self_of_head? (p : Char → Bool) :
    ∀ l : List Char, (∀ a, l.head? = some a → p a = false) → l.dropWhile p = l := by
  intro l h
  cases l with
  | nil => rfl
  | cons b l =>
    have hb := h b rfl
    rw [List.dropWhile_cons, if_neg (by simp [hb])]

/-- dropWhile keeps the last element, unless it empties the list. -/
theorem dropWhile_getLast?_or (p : Char → Bool) :
    ∀ l : List Char, l.dropWhile p = [] ∨ (l.dropWhile p).getLast? = l.getLast? := by
  intro l
  induction l with
  | nil => left; rfl
  | cons b l ih =>
    by_cases hb : p b
    · rw [List.dropWhile_cons, if_pos hb]
      cases l with
      | nil => left; rfl
      | cons c l' =>
        rcases ih with h | h
        · left; exact h
        · right; rw [h, List.getLast?_cons_cons]
    · right; rw [List.dropWhile_cons, if_neg hb]

/-- dropWhile is idempotent. -/
theorem dropWhile_idem (p : Char → Bool) (l : List Char) :
    (l.dropWhile p).dropWhile p = l.dropWhile p :=
  dropWhile_eq_self_of_head? p _ (fun a h => dropWhile_head?_false p l a h)

/-- Stripping both ends is idempotent. -/
theorem stripChars_idem (l : List Char) : stripChars (stripChars l) = stripChars l := by
  unfold stripChars
  have h1 : ((((l.dropWhile Char.isWhitespace).reverse.dropWhile
      Char.isWhitespace).reverse).dropWhile Char.isWhitespace)
      = ((l.dropWhile Char.isWhitespace).reverse.dropWhile Char.isWhitespace).reverse := by
    apply dropWhile_eq_self_of_head?
    intro a ha
    rw [List.head?_reverse] at ha
    rcases dropWhile_getLast?_or Char.isWhitespace
        (l.dropWhile Char.isWhitespace).reverse with h | h
    · rw [h] at ha; simp at ha
    · rw [h, List.getLast?_reverse] at ha
      exact dropWhile_head?_false Char.isWhitespace l a ha
  rw [h1, List.reverse_reverse, dropWhile_idem]

/-- pyStrip is idempotent, like str.strip(). -/
theorem pyStrip_idem (s : String) : pyStrip (pyStrip s) = pyStrip s :=
  congrArg String.mk (stripChars_idem s.toList)

/-- Specification of the dedup loop: every produced tag is stripped, has
a non-empty key outside the seen set, and is the stripped first input
element with its key; the produced keys are pairwise distinct. -/
theorem dedupTagsGo_spec (ts : List String) : ∀ seen : List String,
    (∀ s ∈ dedupTagsGo ts seen,
        pyLower s ∉ seen ∧ pyLower s ≠ "" ∧ pyStrip s = s
        ∧ (ts.find? (fun t => pyLower (pyStrip t) == pyLower s)).map pyStrip = some s)
    ∧ ((dedupTagsGo ts seen).map pyLower).Nodup := by
  induction ts with
  | nil => intro seen; refine ⟨fun s hs => by simp [dedupTagsGo] at hs, by simp [dedupTagsGo]⟩
  | cons t ts ih =>
    intro seen
    by_cases h : pyLower (pyStrip t) ≠ "" ∧ pyLower (pyStrip t) ∉ seen
    · have hstep : dedupTagsGo (t :: ts) seen
          = pyStrip t :: dedupTagsGo ts (pyLower (pyStrip t) :: seen) := by
        simp only [dedupTagsGo]
        rw [if_pos h]
      rw [hstep]
      constructor
      · intro s hs
        rcases List.mem_cons.mp hs with rfl | hs
        · refine ⟨h.2, h.1, pyStrip_idem t, ?_⟩
          rw [List.find?_cons_of_pos _ (by simp [pyStrip_idem])]
          simp
        · obtain ⟨hnot, hne, hidem, hfind⟩ := (ih (pyLower (pyStrip t) :: seen)).1 s hs
          have hkey : pyLower s ≠ pyLower (pyStrip t) := by
            intro hEq; exact hnot (by rw [hEq]; exact List.mem_cons_self _ _)
          refine ⟨fun hmem => hnot (List.mem_cons_of_mem _ hmem), hne, hidem, ?_⟩
          rw [List.find?_cons_of_neg _ (by simp; exact fun hEq => hkey hEq.symm)]
          exact hfind
      · simp only [List.map_cons, List.nodup_cons]
        refine ⟨?_, (ih (pyLower (pyStrip t) :: seen)).2⟩
        intro hmem
        obtain ⟨s, hs, hEq⟩ := List.mem_map.mp hmem
        obtain ⟨hnot, _, _, _⟩ := (ih (pyLower (pyStrip t) :: seen)).1 s hs
        exact hnot (by rw [hEq]; exact List.mem_cons_self _ _)
    · have hstep : dedupTagsGo (t :: ts) seen = dedupTagsGo ts seen := by
        simp only [dedupTagsGo]
        rw [if_neg h]
      rw [hstep]
      refine ⟨?_, (ih seen).2⟩
      intro s hs
      obtain ⟨hnot, hne, hidem, hfind⟩ := (ih seen).1 s hs
      have hkey : pyLower (pyStrip t) ≠ pyLower s := by
        intro hEq
        rcases not_and_or.mp h with h1 | h2
        · exact hne (by rw [← hEq]; simpa using h1)
        · exact hnot (by rw [← hEq]; simpa using h2)
      refine ⟨hnot, hne, hidem, ?_⟩
      rw [List.find?_cons_of_neg _ (by simp [hkey])]
      exact hfind

/-- An empty dedup result means every input key was empty or seen. -/
theorem dedupTagsGo_nil_keys (ts : List String) : ∀ seen : List String,
    dedupTagsGo ts seen = [] →
    ∀ t ∈ ts, pyLower (pyStrip t) = "" ∨ pyLower (pyStrip t) ∈ seen := by
  induction ts with
  | nil => intro seen _ t ht; simp at ht
  | cons t ts ih =>
    intro seen hnil u hu
    by_cases h : pyLower (pyStrip t) ≠ "" ∧ pyLower (pyStrip t) ∉ seen
    · exfalso
      have : dedupTagsGo (t :: ts) seen
          = pyStrip t :: dedupTagsGo ts (pyLower (pyStrip t) :: seen) := by
        simp only [dedupTagsGo]; rw [if_pos h]
      rw [this] at hnil
      exact List.cons_ne_nil _ _ hnil
    · have hstep : dedupTagsGo (t :: ts) seen = dedupTagsGo ts seen := by
        simp only [dedupTagsGo]; rw [if_neg h]
      rw [hstep] at hnil
      rcases List.mem_cons.mp hu with rfl | hu
      · rcases not_and_or.mp h with h1 | h2
        · left; simpa using h1
        · right; simpa using h2
      · exact ih seen hnil u hu

/-- Every input tag with a fresh non-empty key is represented in the
dedup output. -/
theorem dedupTagsGo_surfaces (ts : List String) : ∀ seen : List String,
    ∀ t ∈ ts, pyLower (pyStrip t) ∉ seen → pyLower (pyStrip t) ≠ "" →
    ∃ s ∈ dedupTagsGo ts seen, pyLower s = pyLower (pyStrip t) := by
  induction ts with
  | nil => intro seen t ht; simp at ht
  | cons u ts ih =>
    intro seen t ht hnot hne
    by_cases h : pyLower (pyStrip u) ≠ "" ∧ pyLower (pyStrip u) ∉ seen
    · have hstep : dedupTagsGo (u :: ts) seen
          = pyStrip u :: dedupTagsGo ts (pyLower (pyStrip u) :: seen) := by
        simp only [dedupTagsGo]; rw [if_pos h]
      rw [hstep]
      by_cases hk : pyLower (pyStrip t) = pyLower (pyStrip u)
      · exact ⟨pyStrip u, List.mem_cons_self _ _, hk.symm⟩
      · rcases List.mem_cons.mp ht with rfl | ht2
        · exact absurd rfl hk
        · obtain ⟨s, hs, hEq⟩ := ih (pyLower (pyStrip u) :: seen) t ht2
            (by simp [hk, hnot]) hne
          exact ⟨s, List.mem_cons_of_mem _ hs, hEq⟩
    · have hstep : dedupTagsGo (u :: ts) seen = dedupTagsGo ts seen := by
        simp only [dedupTagsGo]; rw [if_neg h]
      rw [hstep]
      rcases List.mem_cons.mp ht with rfl | ht2
      · exfalso
        rcases not_and_or.mp h with h1 | h2
        · exact hne (by simpa using h1)
        · exact hnot (by simpa using h2)
      · exact ih seen t ht2 hnot hne

/-- C8: the tag list sent to upload is case-insensitively unique; every
non-sentinel entry is the stripped first input occurrence of its
case-insensitive key; and the sentinel tagme is present exactly when the
input holds no real tag (no entry whose stripped lowercase form is
non-empty and differs from tagme), in which case the list is [tagme]. -/
theorem C8_tag_dedup_tagme (ts : List String) :
    ((uploadTagsFinal ts).map pyLower).Nodup
    ∧ (∀ s ∈ uploadTagsFinal ts, s ≠ "tagme" →
        (ts.find? (fun t => pyLower (pyStrip t) == pyLower s)).map pyStrip = some s)
    ∧ ("tagme" ∈ uploadTagsFinal ts ↔
        ¬ ∃ t ∈ ts, pyLower (pyStrip t) ≠ "" ∧ pyLower (pyStrip t) ≠ "tagme")
    ∧ ("tagme" ∈ uploadTagsFinal ts → uploadTagsFinal ts = ["tagme"]) := by
  by_cases hu : dedupTags ts = []
  · have hout : uploadTagsFinal ts = ["tagme"] := by
      simp [uploadTagsFinal, hu]
    refine ⟨by rw [hout]; simp, ?_, ?_, fun _ => hout⟩
    · intro s hs hne
      rw [hout] at hs
      simp at hs
      exact absurd hs hne
    · rw [hout]
      simp only [List.mem_singleton, true_iff]
      rintro ⟨t, ht, h1, _⟩
      rcases dedupTagsGo_nil_keys ts [] hu t ht with h | h
      · exact h1 h
      · simp at h
  · by_cases hr : (dedupTags ts).filter (fun t => pyLower (pyStrip t) != "tagme") = []
    · have hout : uploadTagsFinal ts = ["tagme"] := by
        simp only [uploadTagsFinal]
        rw [if_neg hu, if_pos hr]
      refine ⟨by rw [hout]; simp, ?_, ?_, fun _ => hout⟩
      · intro s hs hne
        rw [hout] at hs
        simp at hs
        exact absurd hs hne
      · rw [hout]
        simp only [List.mem_singleton, true_iff]
        rintro ⟨t, ht, h1, h2⟩
        obtain ⟨s, hs, hEq⟩ := dedupTagsGo_surfaces ts [] t ht (by simp) h1
        have hpred := List.filter_eq_nil_iff.mp hr s hs
        obtain ⟨_, _, hidem, _⟩ := (dedupTagsGo_spec ts []).1 s hs
        rw [hidem] at hpred
        simp only [bne_iff_ne, ne_eq, not_not] at hpred
        exact h2 (by rw [← hEq, hpred])
    · have hout : uploadTagsFinal ts
          = (dedupTags ts).filter (fun t => pyLower (pyStrip t) != "tagme") := by
        simp only [uploadTagsFinal]
        rw [if_neg hu, if_neg hr]
      have hnotag : "tagme" ∉ uploadTagsFinal ts := by
        rw [hout]
        intro hmem
        have := List.of_mem_filter hmem
        simp at this
        exact this (by decide)
      have hreal : ∃ t ∈ ts, pyLower (pyStrip t) ≠ "" ∧ pyLower (pyStrip t) ≠ "tagme" := by
        by_contra hno
        apply hr
        rw [List.filter_eq_nil_iff]
        intro s hs
        obtain ⟨_, hne, hidem, hfind⟩ := (dedupTagsGo_spec ts []).1 s hs
        obtain ⟨t0, hfind0, hstrip⟩ := Option.map_eq_some'.mp hfind
        have ht0 : t0 ∈ ts := List.mem_of_find?_eq_some hfind0
        have hkey : pyLower (pyStrip t0) = pyLower s := by
          have := List.find?_some hfind0
          simpa using this
        have : pyLower (pyStrip t0) = "tagme" := by
          by_contra hne2
          exact hno ⟨t0, ht0, by rw [hkey]; exact hne, hne2⟩
        rw [hidem]
        simp only [bne_iff_ne, ne_eq, not_not]
        rw [← hkey, this]
      refine ⟨?_, ?_, ?_, fun hmem => absurd hmem hnotag⟩
      · rw [hout]
        exact ((dedupTagsGo_spec ts []).2).sublist
          ((List.filter_sublist (dedupTags ts)).map pyLower)
      · intro s hs _
        rw [hout] at hs
        exact ((dedupTagsGo_spec ts []).1 s (List.mem_of_mem_filter hs)).2.2.2
      · constructor
        · intro hmem; exact absurd hmem hnotag
        · intro hno; exact absurd hreal hno

/-- C8 witness: the dedup theorem applied to a concrete tag list; the
entry Red is the stripped first occurrence of its key. -/
theorem C8_tag_dedup_tagme_witness :
    (tagListSample.find? (fun t => pyLower (pyStrip t) == pyLower "Red")).map pyStrip
      = some "Red" :=
  (C8_tag_dedup_tagme tagListSample).2.1 "Red" (by decide) (by decide)

-- ---------------------------------------------------------------------------
-- C7: tag cache correctness
-- ---------------------------------------------------------------------------

/-- A freshly inserted cache binding is what lookup returns. -/
theorem cacheLookup_cacheInsert_self (c : TagCacheMap) (k : String) (e : TagCacheEntry) :
    cacheLookup (cacheInsert c k e) k = some e := by
  unfold cacheLookup cacheInsert
  rw [List.find?_cons_of_pos _ (by simp)]

/-- A fresh cache hit returns success immediately with no remote call. -/
theorem ensureTag_fresh (cache : TagCacheMap) (env : RemoteEnv) (now : Int)
    (tagName category : String)
    (hf : ensureFresh cache now tagName category = true) :
    ensureTag cache env now tagName category
      = { success := true, cache := cache, remoteCalls := 0 } := by
  simp [ensureTag, hf]

/-- On a cache miss every success branch of ensure_tag stores the entry
(lowercased category, now) and makes at least one remote call. -/
theorem ensureTag_not_fresh (cache : TagCacheMap) (env : RemoteEnv) (now : Int)
    (tagName category : String)
    (hnf : ensureFresh cache now tagName category = false)
    (h : (ensureTag cache env now tagName category).success = true) :
    ∃ n, 1 ≤ n ∧ ensureTag cache env now tagName category
      = { success := true, cache := cacheTag cache tagName category now, remoteCalls := n } := by
  cases hc : env.create with
  | ok => exact ⟨1, by omega, by simp [ensureTag, hnf, hc]⟩
  | otherError =>
    have : (ensureTag cache env now tagName category).success = false := by
      simp [ensureTag, hnf, hc]
    rw [this] at h
    exact absurd h (by simp)
  | alreadyExists =>
    cases hg : env.getTag with
    | none => exact ⟨2, by omega, by simp [ensureTag, hnf, hc, hg]⟩
    | some ex =>
      by_cases hcat : pyLower (pyStrip (ex.category.getD "")) == pyLower category
      · exact ⟨2, by omega, by simp [ensureTag, hnf, hc, hg, hcat]⟩
      · cases hv : ex.version with
        | none => exact ⟨2, by omega, by simp [ensureTag, hnf, hc, hg, hcat, hv]⟩
        | some v => exact ⟨3, by omega, by simp [ensureTag, hnf, hc, hg, hcat, hv]⟩

/-- C7 counterexample: ensure_tag can return success with a cache entry
whose verified_at is not the current time.  At time 0 a miss creates the
tag and stamps verified_at 0; a second ensure at time 100 succeeds with
zero remote calls yet the entry still carries verified_at 0, not 100. -/
theorem C7_verified_at_stale_counterexample :
    (ensureTag [] remoteEnvCreateOk 0 "alice" "artist").success = true
    ∧ (ensureTag [] remoteEnvCreateOk 0 "alice" "artist").remoteCalls = 1
    ∧ (ensureTag (ensureTag [] remoteEnvCreateOk 0 "alice" "artist").cache
        remoteEnvCreateOk 100 "alice" "artist").success = true
    ∧ (ensureTag (ensureTag [] remoteEnvCreateOk 0 "alice" "artist").cache
        remoteEnvCreateOk 100 "alice" "artist").remoteCalls = 0
    ∧ (∀ e, cacheLookup (ensureTag (ensureTag [] remoteEnvCreateOk 0 "alice" "artist").cache
          remoteEnvCreateOk 100 "alice" "artist").cache (pyLower "alice") = some e →
        e.verifiedAt = 0 ∧ e.verifiedAt ≠ 100) := by
  decide

/-- C7 amended: after ensure(t, c) returns success the in-memory entry
for t has category c (lowercased) and verified_at within the TTL of now;
verified_at equals now on every success path that made a remote call,
while a fresh cache hit leaves the prior timestamp.  A subsequent
ensure(t, c) while the entry is fresh makes zero remote calls, returns
success, and leaves the cache unchanged. -/
theorem C7_cache_correct_amended (cache : TagCacheMap) (env : RemoteEnv)
    (now : Int) (tagName category : String)
    (h : (ensureTag cache env now tagName category).success = true) :
    (∃ e, cacheLookup (ensureTag cache env now tagName category).cache
          (pyLower tagName) = some e
        ∧ e.category = pyLower category
        ∧ now - e.verifiedAt < TAG_CACHE_TTL_SECONDS
        ∧ (1 ≤ (ensureTag cache env now tagName category).remoteCalls →
            e.verifiedAt = now))
    ∧ (∀ (env2 : RemoteEnv) (now2 : Int) (e : TagCacheEntry),
        cacheLookup (ensureTag cache env now tagName category).cache
          (pyLower tagName) = some e →
        now2 - e.verifiedAt < TAG_CACHE_TTL_SECONDS →
        ensureTag (ensureTag cache env now tagName category).cache env2 now2
            tagName category
          = { success := true
              cache := (ensureTag cache env now tagName category).cache
              remoteCalls := 0 }) := by
  have hpart1 : ∃ e, cacheLookup (ensureTag cache env now tagName category).cache
      (pyLower tagName) = some e
      ∧ e.category = pyLower category
      ∧ now - e.verifiedAt < TAG_CACHE_TTL_SECONDS
      ∧ (1 ≤ (ensureTag cache env now tagName category).remoteCalls →
          e.verifiedAt = now) := by
    by_cases hf : ensureFresh cache now tagName category = true
    · rw [ensureTag_fresh cache env now tagName category hf]
      unfold ensureFresh at hf
      cases hlook : cacheLookup cache (pyLower tagName) with
      | none => rw [hlook] at hf; simp at hf
      | some entry =>
        rw [hlook] at hf
        simp only [Bool.and_eq_true, beq_iff_eq, decide_eq_true_eq] at hf
        exact ⟨entry, rfl, hf.1, hf.2, by intro hc; simp at hc⟩
    · obtain ⟨n, hn, hres⟩ := ensureTag_not_fresh cache env now tagName category
        (by simpa using hf) h
      rw [hres]
      refine ⟨{ category := pyLower category, verifiedAt := now },
        cacheLookup_cacheInsert_self _ _ _, rfl, ?_, fun _ => rfl⟩
      have : now - now = 0 := by omega
      rw [this]
      decide
  refine ⟨hpart1, ?_⟩
  obtain ⟨e0, hl0, hcat0, -, -⟩ := hpart1
  intro env2 now2 e hle hfresh2
  have he : e = e0 := by
    rw [hl0] at hle
    exact (Option.some.injEq _ _).mp hle.symm
  subst he
  have hf2 : ensureFresh (ensureTag cache env now tagName category).cache
      now2 tagName category = true := by
    unfold ensureFresh
    rw [hl0]
    simp [hcat0, hfresh2]
  exact ensureTag_fresh _ env2 now2 _ _ hf2

/-- C7 witness: the amended cache theorem applied to an empty cache, a
succeeding remote create, tag alice and category artist at time 0. -/
theorem C7_cache_correct_amended_witness :
    ∃ e, cacheLookup (ensureTag [] remoteEnvCreateOk 0 "alice" "artist").cache
        (pyLower "alice") = some e
      ∧ e.category = pyLower "artist"
      ∧ (0 : Int) - e.verifiedAt < TAG_CACHE_TTL_SECONDS
      ∧ (1 ≤ (ensureTag [] remoteEnvCreateOk 0 "alice" "artist").remoteCalls →
          e.verifiedAt = 0) :=
  (C7_cache_correct_amended [] remoteEnvCreateOk 0 "alice" "artist" (by decide)).1

-- ---------------------------------------------------------------------------
-- C10: tagger totality and safety override
-- ---------------------------------------------------------------------------

/-- The safety computed from rating data is always one of the three
Szurubooru safety strings. -/
theorem safetyFromRatings_mem (ratings : List (String × ℚ)) :
    safetyFromRatings ratings = "safe" ∨ safetyFromRatings ratings = "sketchy"
      ∨ safetyFromRatings ratings = "unsafe" := by
  by_cases h1 : ratings.isEmpty
  · exact Or.inr (Or.inr (by simp [safetyFromRatings, h1]))
  · by_cases h2 : bestRating ratings = "explicit"
    · exact Or.inr (Or.inr (by simp [safetyFromRatings, h1, h2]))
    · by_cases h3 : bestRating ratings = "questionable" ∨ bestRating ratings = "sensitive"
      · exact Or.inr (Or.inl (by simp [safetyFromRatings, h1, h2, h3]))
      · exact Or.inl (by simp [safetyFromRatings, h1, h2, h3])

/-- Whatever the environment, tag_image returns one of the three safety
strings (and in particular never an empty one). -/
theorem tagImage_safety_mem (env : TaggerEnv) (threshold : ℚ) (maxTags : Nat) :
    (tagImage env threshold maxTags).safety = "safe"
      ∨ (tagImage env threshold maxTags).safety = "sketchy"
      ∨ (tagImage env threshold maxTags).safety = "unsafe" := by
  cases henv : env.wd14Enabled with
  | false => exact Or.inr (Or.inr (by simp [tagImage, henv, emptyTagResult]))
  | true =>
    cases hav : env.wd14Available with
    | false => exact Or.inr (Or.inr (by simp [tagImage, henv, hav, emptyTagResult]))
    | true =>
      cases ho : env.outcome with
      | exception => exact Or.inr (Or.inr (by simp [tagImage, henv, hav, ho, emptyTagResult]))
      | noResult => exact Or.inr (Or.inr (by simp [tagImage, henv, hav, ho, emptyTagResult]))
      | result raw =>
        have hmem := safetyFromRatings_mem raw.ratingData
        simpa [tagImage, henv, hav, ho, processWdtaggerResult] using hmem

/-- C10: tag_image is total and its failure default carries safety
unsafe; the safety it returns is always one of the three non-empty
safety strings, so the processor always adopts it over the job safety;
with WD14 disabled every tagged image is therefore uploaded unsafe,
whatever safety the caller requested. -/
theorem C10_tagger_safety_override (env : TaggerEnv) (threshold : ℚ)
    (maxTags : Nat) (jobSafety : String) :
    ((tagImage env threshold maxTags).safety = "safe"
      ∨ (tagImage env threshold maxTags).safety = "sketchy"
      ∨ (tagImage env threshold maxTags).safety = "unsafe")
    ∧ (tagImage env threshold maxTags).safety ≠ ""
    ∧ mediaImageSafety jobSafety env threshold maxTags
        = (tagImage env threshold maxTags).safety
    ∧ (env.wd14Enabled = false →
        mediaImageSafety jobSafety env threshold maxTags = "unsafe") := by
  have hmem := tagImage_safety_mem env threshold maxTags
  have hne : (tagImage env threshold maxTags).safety ≠ "" := by
    rcases hmem with h | h | h <;> rw [h] <;> decide
  have hadopt : mediaImageSafety jobSafety env threshold maxTags
      = (tagImage env threshold maxTags).safety := by
    simp [mediaImageSafety, hne]
  refine ⟨hmem, hne, hadopt, ?_⟩
  intro hdis
  rw [hadopt]
  simp [tagImage, hdis, emptyTagResult]

/-- C10 witness: with WD14 disabled a caller-requested safe image is
still uploaded unsafe. -/
theorem C10_tagger_safety_override_witness :
    mediaImageSafety "safe" taggerEnvDisabled (7/20) 30 = "unsafe" :=
  (C10_tagger_safety_override taggerEnvDisabled (7/20) 30 "safe").2.2.2 rfl

-- ---------------------------------------------------------------------------
-- C9: video frame aggregation
-- ---------------------------------------------------------------------------

/-- Membership and distinctness of the first-occurrence scan. -/
theorem firstOccurrencesGo_spec (l : List String) : ∀ seen : List String,
    (∀ t, t ∈ firstOccurrencesGo l seen ↔ (t ∈ l ∧ t ∉ seen))
    ∧ (firstOccurrencesGo l seen).Nodup := by
  induction l with
  | nil =>
    intro seen
    exact ⟨fun t => by simp [firstOccurrencesGo], by simp [firstOccurrencesGo]⟩
  | cons a l ih =>
    intro seen
    by_cases h : a ∈ seen
    · rw [show firstOccurrencesGo (a :: l) seen = firstOccurrencesGo l seen from by
        simp [firstOccurrencesGo, h]]
      refine ⟨fun t => ?_, (ih seen).2⟩
      rw [(ih seen).1 t]
      constructor
      · rintro ⟨h1, h2⟩
        exact ⟨List.mem_cons_of_mem _ h1, h2⟩
      · rintro ⟨h1, h2⟩
        rcases List.mem_cons.mp h1 with rfl | h1
        · exact absurd h h2
        · exact ⟨h1, h2⟩
    · rw [show firstOccurrencesGo (a :: l) seen
          = a :: firstOccurrencesGo l (a :: seen) from by simp [firstOccurrencesGo, h]]
      constructor
      · intro t
        simp only [List.mem_cons]
        rw [(ih (a :: seen)).1 t]
        constructor
        · rintro (rfl | ⟨h1, h2⟩)
          · exact ⟨Or.inl rfl, h⟩
          · exact ⟨Or.inr h1, fun hm => h2 (List.mem_cons_of_mem _ hm)⟩
        · rintro ⟨(rfl | h1), h2⟩
          · exact Or.inl rfl
          · by_cases ht : t = a
            · exact Or.inl ht
            · exact Or.inr ⟨h1, by simp [ht, h2]⟩
      · rw [List.nodup_cons]
        refine ⟨fun hmem => ?_, (ih (a :: seen)).2⟩
        exact (((ih (a :: seen)).1 a).mp hmem).2 (List.mem_cons_self _ _)

/-- Dict keys are exactly the elements of the scanned list. -/
theorem dictKeysInOrder_mem (l : List String) (t : String) :
    t ∈ dictKeysInOrder l ↔ t ∈ l := by
  unfold dictKeysInOrder
  rw [(firstOccurrencesGo_spec l []).1 t]
  simp

/-- Dict keys are pairwise distinct. -/
theorem dictKeysInOrder_nodup (l : List String) : (dictKeysInOrder l).Nodup :=
  (firstOccurrencesGo_spec l []).2

/-- The sort key order is total. -/
theorem qualLE_total (a b : String × Nat) : qualLE a b = true ∨ qualLE b a = true := by
  unfold qualLE
  rcases lt_trichotomy a.2 b.2 with h | h | h
  · right; simp [h]
  · rcases le_total a.1 b.1 with h1 | h1
    · left; simp [h, h1]
    · right; simp [h.symm, h1]
  · left; simp [h]

/-- The sort key order is transitive. -/
theorem qualLE_trans (a b c : String × Nat)
    (h1 : qualLE a b = true) (h2 : qualLE b c = true) : qualLE a c = true := by
  unfold qualLE at h1 h2 ⊢
  simp only [Bool.or_eq_true, Bool.and_eq_true, decide_eq_true_eq] at h1 h2 ⊢
  rcases h1 with h1 | ⟨h1e, h1s⟩ <;> rcases h2 with h2 | ⟨h2e, h2s⟩
  · left; omega
  · left; omega
  · left; omega
  · exact Or.inr ⟨by omega, le_trans h1s h2s⟩

/-- Insertion adds exactly the inserted element. -/
theorem mem_insertQual (x : String × Nat) (l : List (String × Nat)) (z : String × Nat) :
    z ∈ insertQual x l ↔ z = x ∨ z ∈ l := by
  induction l with
  | nil => simp [insertQual]
  | cons y ys ih =>
    rw [insertQual]
    by_cases h : qualLE x y
    · simp only [if_pos h, List.mem_cons]
    · simp only [if_neg h, List.mem_cons, ih]
      tauto

/-- Insertion permutes the cons. -/
theorem insertQual_perm (x : String × Nat) (l : List (String × Nat)) :
    List.Perm (insertQual x l) (x :: l) := by
  induction l with
  | nil => exact List.Perm.refl _
  | cons y ys ih =>
    rw [insertQual]
    by_cases h : qualLE x y
    · rw [if_pos h]
    · rw [if_neg h]
      exact (ih.cons y).trans (List.Perm.swap x y ys)

/-- The sort is a permutation. -/
theorem sortQual_perm (l : List (String × Nat)) : List.Perm (sortQual l) l := by
  induction l with
  | nil => exact List.Perm.refl _
  | cons x xs ih => exact (insertQual_perm x (sortQual xs)).trans (ih.cons x)

/-- Insertion preserves sortedness. -/
theorem pairwise_insertQual (x : String × Nat) (l : List (String × Nat))
    (h : l.Pairwise (fun a b => qualLE a b = true)) :
    (insertQual x l).Pairwise (fun a b => qualLE a b = true) := by
  induction l with
  | nil => simp [insertQual]
  | cons y ys ih =>
    rw [insertQual]
    by_cases hxy : qualLE x y
    · rw [if_pos hxy, List.pairwise_cons]
      refine ⟨fun z hz => ?_, h⟩
      rcases List.mem_cons.mp hz with rfl | hz
      · exact hxy
      · exact qualLE_trans x y z hxy ((List.pairwise_cons.mp h).1 z hz)
    · rw [if_neg hxy, List.pairwise_cons]
      rw [List.pairwise_cons] at h
      have hyx : qualLE y x = true := by
        rcases qualLE_total x y with ht | ht
        · exact absurd ht hxy
        · exact ht
      refine ⟨fun z hz => ?_, ih h.2⟩
      rcases (mem_insertQual x ys z).mp hz with rfl | hz
      · exact hyx
      · exact h.1 z hz

/-- The sort result is sorted by the key order. -/
theorem sortQual_pairwise (l : List (String × Nat)) :
    (sortQual l).Pairwise (fun a b => qualLE a b = true) := by
  induction l with
  | nil => simp [sortQual]
  | cons x xs ih => exact pairwise_insertQual x (sortQual xs) ih

/-- With duplicate-free per-frame lists, the occurrence count of a tag
in the concatenation equals the number of frames containing it. -/
theorem count_flatten_frames (frames : List TagResult) (t : String)
    (hnd : ∀ fr ∈ frames, fr.generalTags.Nodup) :
    (aggAllGeneral frames).count t
      = (frames.filter (fun fr => t ∈ fr.generalTags)).length := by
  induction frames with
  | nil => simp [aggAllGeneral]
  | cons fr fs ih =>
    have hstep : aggAllGeneral (fr :: fs) = fr.generalTags ++ aggAllGeneral fs := by
      simp [aggAllGeneral]
    rw [hstep, List.count_append,
      ih (fun g hg => hnd g (List.mem_cons_of_mem _ hg))]
    by_cases hmem : t ∈ fr.generalTags
    · rw [List.count_eq_one_of_mem (hnd fr (List.mem_cons_self _ _)) hmem]
      simp [List.filter_cons, hmem, Nat.add_comm]
    · rw [List.count_eq_zero_of_not_mem hmem]
      simp [List.filter_cons, hmem]

/-- A left fold of max is at least its initial value. -/
theorem foldl_max_init_le (l : List Nat) : ∀ a : Nat, a ≤ l.foldl max a := by
  induction l with
  | nil => intro a; exact le_refl a
  | cons b l ih =>
    intro a
    exact le_trans (le_max_left a b) (ih (max a b))

/-- A left fold of max dominates every element. -/
theorem foldl_max_mem_le (l : List Nat) : ∀ (a : Nat), ∀ x ∈ l, x ≤ l.foldl max a := by
  induction l with
  | nil => intro a x hx; simp at hx
  | cons b l ih =>
    intro a x hx
    rcases List.mem_cons.mp hx with rfl | hx
    · exact le_trans (le_max_right a x) (foldl_max_init_le l (max a x))
    · exact ih (max a b) x hx

/-- A left fold of max is the initial value or an element. -/
theorem foldl_max_eq_or_mem (l : List Nat) : ∀ a : Nat,
    l.foldl max a = a ∨ l.foldl max a ∈ l := by
  induction l with
  | nil => intro a; left; rfl
  | cons b l ih =>
    intro a
    rcases ih (max a b) with h | h
    · rcases le_total a b with hab | hab
      · right
        rw [List.foldl_cons, h, max_eq_right hab]
        exact List.mem_cons_self _ _
      · left
        rw [List.foldl_cons, h, max_eq_left hab]
    · right
      exact List.mem_cons_of_mem _ h

/-- A left fold of max respects a common upper bound. -/
theorem foldl_max_le_bound (l : List Nat) : ∀ (a c : Nat), a ≤ c →
    (∀ x ∈ l, x ≤ c) → l.foldl max a ≤ c := by
  induction l with
  | nil => intro a c hac _; exact hac
  | cons b l ih =>
    intro a c hac hl
    exact ih (max a b) c (max_le hac (hl b (List.mem_cons_self _ _)))
      (fun x hx => hl x (List.mem_cons_of_mem _ hx))


/-- Tags occur in the concatenation exactly when some frame holds them. -/
theorem mem_aggAllGeneral (frames : List TagResult) (t : String) :
    t ∈ aggAllGeneral frames ↔ ∃ fr ∈ frames, t ∈ fr.generalTags := by
  unfold aggAllGeneral
  simp

/-- Membership in the qualified list. -/
theorem mem_aggQualified (frames : List TagResult) (minFrac : ℚ) (p : String × Nat) :
    p ∈ aggQualified frames minFrac ↔
      (p.1 ∈ aggAllGeneral frames
        ∧ aggMinCount frames.length minFrac ≤ (aggAllGeneral frames).count p.1
        ∧ p.2 = (aggAllGeneral frames).count p.1) := by
  unfold aggQualified
  constructor
  · intro hp
    obtain ⟨t, ht, hEq⟩ := List.mem_map.mp hp
    have h1 := List.mem_of_mem_filter ht
    have h2 := List.of_mem_filter ht
    rw [← hEq]
    exact ⟨(dictKeysInOrder_mem _ _).mp h1, by simpa using h2, rfl⟩
  · rintro ⟨h1, h2, h3⟩
    apply List.mem_map.mpr
    refine ⟨p.1, List.mem_filter.mpr ⟨(dictKeysInOrder_mem _ _).mpr h1, by simpa using h2⟩, ?_⟩
    obtain ⟨t, c⟩ := p
    simp only at h3
    simp [h3]

/-- Mapping a list into pairs and projecting back is the identity. -/
theorem map_fst_pairing (f : String → Nat) (l : List String) :
    ((l.map fun t => (t, f t)).map Prod.fst) = l := by
  induction l with
  | nil => rfl
  | cons a l ih => simp [ih]

/-- First components of the qualified list are the qualified dict keys. -/
theorem aggQualified_map_fst (frames : List TagResult) (minFrac : ℚ) :
    (aggQualified frames minFrac).map Prod.fst
      = (dictKeysInOrder (aggAllGeneral frames)).filter
          (fun t => decide (aggMinCount frames.length minFrac
            ≤ (aggAllGeneral frames).count t)) := by
  unfold aggQualified
  exact map_fst_pairing _ _

/-- Every safety rank is at most 2. -/
theorem SAFETY_RANK_le_two (s : String) : SAFETY_RANK s ≤ 2 := by
  unfold SAFETY_RANK
  split_ifs <;> omega

/-- C9 amended: for non-empty frame lists with duplicate-free per-frame
general tags and valid safeties: a general tag in the aggregate appears
in at least max(1, floor(N * min_frame_ratio)) frames, and if at most
max_tags tags qualify, membership is exactly that threshold; the list is
ordered by frame count descending with ties alphabetical; a character
tag is kept iff it appears in some frame; and the safety is the most
restrictive across frames. -/
theorem C9_aggregate_amended (frames : List TagResult) (minFrac : ℚ) (maxTags : Nat)
    (hne : frames ≠ [])
    (hnd : ∀ fr ∈ frames, fr.generalTags.Nodup)
    (hsafe : ∀ fr ∈ frames, fr.safety = "safe" ∨ fr.safety = "sketchy"
      ∨ fr.safety = "unsafe") :
    (∀ t ∈ (aggregateFrameTags frames minFrac maxTags).generalTags,
        aggMinCount frames.length minFrac
          ≤ (frames.filter (fun fr => t ∈ fr.generalTags)).length)
    ∧ ((aggQualified frames minFrac).length ≤ maxTags →
        ∀ t, t ∈ (aggregateFrameTags frames minFrac maxTags).generalTags ↔
          ((∃ fr ∈ frames, t ∈ fr.generalTags)
            ∧ aggMinCount frames.length minFrac
                ≤ (frames.filter (fun fr => t ∈ fr.generalTags)).length))
    ∧ List.Pairwise (fun a b =>
        (frames.filter (fun fr => b ∈ fr.generalTags)).length
            < (frames.filter (fun fr => a ∈ fr.generalTags)).length
          ∨ ((frames.filter (fun fr => a ∈ fr.generalTags)).length
              = (frames.filter (fun fr => b ∈ fr.generalTags)).length ∧ a < b))
        (aggregateFrameTags frames minFrac maxTags).generalTags
    ∧ (∀ t, t ∈ (aggregateFrameTags frames minFrac maxTags).characterTags ↔
        ∃ fr ∈ frames, t ∈ fr.characterTags)
    ∧ (∀ fr ∈ frames, SAFETY_RANK fr.safety
        ≤ SAFETY_RANK (aggregateFrameTags frames minFrac maxTags).safety)
    ∧ (∃ fr ∈ frames, fr.safety = (aggregateFrameTags frames minFrac maxTags).safety) := by
  have hie : ¬ frames.isEmpty = true := by
    cases frames with
    | nil => exact absurd rfl hne
    | cons a l => simp
  have hgen : (aggregateFrameTags frames minFrac maxTags).generalTags
      = ((sortQual (aggQualified frames minFrac)).take maxTags).map Prod.fst := by
    unfold aggregateFrameTags
    rw [if_neg hie]
  have hchar : (aggregateFrameTags frames minFrac maxTags).characterTags
      = dictKeysInOrder (frames.map TagResult.characterTags).flatten := by
    unfold aggregateFrameTags
    rw [if_neg hie]
  have hsafety : (aggregateFrameTags frames minFrac maxTags).safety
      = SAFETY_NAME (aggWorst frames) := by
    unfold aggregateFrameTags
    rw [if_neg hie]
  have hcnt : ∀ t, (aggAllGeneral frames).count t
      = (frames.filter (fun fr => t ∈ fr.generalTags)).length :=
    fun t => count_flatten_frames frames t hnd
  have hworst_fold : aggWorst frames
      = (frames.map fun fr => SAFETY_RANK fr.safety).foldl max 0 := by
    unfold aggWorst
    rw [List.foldl_map]
  have hw2 : aggWorst frames ≤ 2 := by
    rw [hworst_fold]
    apply foldl_max_le_bound _ _ _ (by omega)
    intro x hx
    obtain ⟨fr, _, rfl⟩ := List.mem_map.mp hx
    exact SAFETY_RANK_le_two _
  have hname_rank : SAFETY_RANK (SAFETY_NAME (aggWorst frames)) = aggWorst frames := by
    have h3 : aggWorst frames = 0 ∨ aggWorst frames = 1 ∨ aggWorst frames = 2 := by
      omega
    rcases h3 with h | h | h <;> rw [h] <;> decide
  refine ⟨?_, ?_, ?_, ?_, ?_, ?_⟩
  -- conjunct 1: every kept general tag qualifies
  · intro t ht
    rw [hgen] at ht
    obtain ⟨p, hp, hEq⟩ := List.mem_map.mp ht
    have hp3 : p ∈ aggQualified frames minFrac :=
      (sortQual_perm (aggQualified frames minFrac)).mem_iff.mp
        (List.take_subset _ _ hp)
    obtain ⟨_, h2, _⟩ := (mem_aggQualified frames minFrac p).mp hp3
    rw [← hEq, ← hcnt]
    exact h2
  -- conjunct 2: with room for all qualified tags, membership is the threshold
  · intro hlen t
    rw [hgen]
    have htake : (sortQual (aggQualified frames minFrac)).take maxTags
        = sortQual (aggQualified frames minFrac) :=
      List.take_of_length_le
        (by rw [(sortQual_perm (aggQualified frames minFrac)).length_eq]; exact hlen)
    rw [htake]
    constructor
    · intro ht
      obtain ⟨p, hp, hEq⟩ := List.mem_map.mp ht
      have hp3 : p ∈ aggQualified frames minFrac :=
        (sortQual_perm (aggQualified frames minFrac)).mem_iff.mp hp
      obtain ⟨h1, h2, _⟩ := (mem_aggQualified frames minFrac p).mp hp3
      rw [← hEq]
      exact ⟨(mem_aggAllGeneral frames p.1).mp h1, by rw [← hcnt]; exact h2⟩
    · rintro ⟨hex, hcount⟩
      apply List.mem_map.mpr
      refine ⟨(t, (aggAllGeneral frames).count t), ?_, rfl⟩
      apply (sortQual_perm (aggQualified frames minFrac)).mem_iff.mpr
      apply (mem_aggQualified frames minFrac _).mpr
      exact ⟨(mem_aggAllGeneral frames t).mpr hex, by rw [hcnt]; exact hcount, rfl⟩
  -- conjunct 3: sorted by count descending, ties alphabetically
  · rw [hgen]
    have hsorted : ((sortQual (aggQualified frames minFrac)).take maxTags).Pairwise
        (fun a b => qualLE a b = true) :=
      (sortQual_pairwise (aggQualified frames minFrac)).sublist
        (List.take_sublist _ _)
    have hnodup : ((sortQual (aggQualified frames minFrac)).take maxTags).Pairwise
        (fun a b => a.1 ≠ b.1) := by
      have h1 : ((aggQualified frames minFrac).map Prod.fst).Nodup := by
        rw [aggQualified_map_fst]
        exact (dictKeysInOrder_nodup _).filter _
      have h2 : ((sortQual (aggQualified frames minFrac)).map Prod.fst).Nodup :=
        (((sortQual_perm (aggQualified frames minFrac)).map Prod.fst).nodup_iff).mpr h1
      have h3 : (((sortQual (aggQualified frames minFrac)).take maxTags).map
          Prod.fst).Nodup := by
        rw [List.map_take]
        exact h2.sublist (List.map_take _ _ _ ▸ (List.take_sublist _ _).map Prod.fst)
      exact List.pairwise_map.mp h3
    rw [List.pairwise_map]
    apply (hsorted.and hnodup).imp_of_mem
    intro p q hp hq hpq
    obtain ⟨hle, hne'⟩ := hpq
    have hp3 : p ∈ aggQualified frames minFrac :=
      (sortQual_perm (aggQualified frames minFrac)).mem_iff.mp
        (List.take_subset _ _ hp)
    have hq3 : q ∈ aggQualified frames minFrac :=
      (sortQual_perm (aggQualified frames minFrac)).mem_iff.mp
        (List.take_subset _ _ hq)
    obtain ⟨_, _, hp2⟩ := (mem_aggQualified frames minFrac p).mp hp3
    obtain ⟨_, _, hq2⟩ := (mem_aggQualified frames minFrac q).mp hq3
    unfold qualLE at hle
    simp only [Bool.or_eq_true, Bool.and_eq_true, decide_eq_true_eq] at hle
    rcases hle with hlt | ⟨heq, hles⟩
    · left
      rw [← hcnt, ← hcnt, ← hp2, ← hq2]
      exact hlt
    · right
      refine ⟨by rw [← hcnt, ← hcnt, ← hp2, ← hq2]; exact heq, ?_⟩
      exact lt_of_le_of_ne hles hne'
  -- conjunct 4: character tags are kept iff they occur in some frame
  · intro t
    rw [hchar, dictKeysInOrder_mem]
    simp
  -- conjunct 5: the aggregate safety dominates every frame safety
  · intro fr hfr
    rw [hsafety, hname_rank, hworst_fold]
    exact foldl_max_mem_le _ 0 _ (List.mem_map_of_mem _ hfr)
  -- conjunct 6: the aggregate safety is attained by some frame
  · rw [hsafety]
    rcases foldl_max_eq_or_mem (frames.map fun fr => SAFETY_RANK fr.safety) 0 with
      h0 | hmem
    · have hw0 : aggWorst frames = 0 := by rw [hworst_fold]; exact h0
      cases frames with
      | nil => exact absurd rfl hne
      | cons fr0 fs =>
        refine ⟨fr0, List.mem_cons_self _ _, ?_⟩
        have h1 : SAFETY_RANK fr0.safety ≤ 0 := by
          calc SAFETY_RANK fr0.safety
              ≤ ((fr0 :: fs).map fun fr => SAFETY_RANK fr.safety).foldl max 0 :=
                foldl_max_mem_le _ 0 _
                  (List.mem_map_of_mem _ (List.mem_cons_self fr0 fs))
            _ = aggWorst (fr0 :: fs) := hworst_fold.symm
            _ = 0 := hw0
        rw [hw0]
        rcases hsafe fr0 (List.mem_cons_self _ _) with hs | hs | hs
        · rw [hs]; decide
        · rw [hs] at h1; exact absurd h1 (by decide)
        · rw [hs] at h1; exact absurd h1 (by decide)
    · obtain ⟨fr, hfr, hEq⟩ := List.mem_map.mp hmem
      refine ⟨fr, hfr, ?_⟩
      have hw : aggWorst frames = SAFETY_RANK fr.safety := by
        rw [hworst_fold]; exact hEq.symm
      rw [hw]
      rcases hsafe fr hfr with hs | hs | hs <;> rw [hs] <;> decide

/-- C9 witness: the amended aggregation theorem applied to five concrete
frames; some frame attains the aggregated safety. -/
theorem C9_aggregate_amended_witness :
    ∃ fr ∈ frameResultsFive,
      fr.safety = (aggregateFrameTags frameResultsFive (3/10) 30).safety :=
  (C9_aggregate_amended frameResultsFive (3/10) 30 (by decide) (by decide)
    (by decide)).2.2.2.2.2

/-- C9 counterexample: the kept-iff-ceil claim fails.  With five frames
and min_frame_ratio 3/10 the code threshold is max(1, int(1.5)) = 1, so
the tag a, present in a single frame, is kept, although it appears in
fewer than ceil(5 * 3/10) = 2 frames. -/
theorem C9_floor_threshold_counterexample :
    "a" ∈ (aggregateFrameTags frameResultsFive (3/10) 30).generalTags
    ∧ ((frameResultsFive.filter (fun fr => "a" ∈ fr.generalTags)).length : ℤ)
        < ⌈(frameResultsFive.length : ℚ) * (3/10)⌉ := by
  have hcast : ((frameResultsFive.length : ℕ) : ℚ) = 5 := by
    have h5 : frameResultsFive.length = 5 := by decide
    rw [h5]
    norm_num
  have hfloor : ⌊((frameResultsFive.length : ℕ) : ℚ) * (3/10)⌋ = 1 := by
    rw [hcast]
    apply Int.floor_eq_iff.mpr
    constructor <;> norm_num
  have hmc : aggMinCount frameResultsFive.length (3/10) = 1 := by
    unfold aggMinCount
    rw [hfloor]
    decide
  constructor
  · have hq : aggQualified frameResultsFive (3/10) = [("a", 1), ("b", 4)] := by
      unfold aggQualified
      rw [hmc]
      decide
    have hgen : (aggregateFrameTags frameResultsFive (3/10) 30).generalTags
        = ["b", "a"] := by
      unfold aggregateFrameTags
      rw [if_neg (by decide), hq]
      decide
    rw [hgen]
    decide
  · have hceil : ⌈((frameResultsFive.length : ℕ) : ℚ) * (3/10)⌉ = 2 := by
      rw [hcast]
      apply Int.ceil_eq_iff.mpr
      constructor <;> norm_num
    have hlen : ((frameResultsFive.filter
        (fun fr => "a" ∈ fr.generalTags)).length : ℤ) = 1 := by
      decide
    rw [hlen, hceil]
    decide

-- ---------------------------------------------------------------------------
-- C3: claim exclusivity under concurrency
-- ---------------------------------------------------------------------------

/-- pickOldest is none exactly on the empty list. -/
theorem pickOldest_eq_none (l : List QJob) : pickOldest l = none ↔ l = [] := by
  cases l with
  | nil => simp [pickOldest]
  | cons a l =>
    simp only [pickOldest]
    cases hp : pickOldest l with
    | none => simp
    | some b => by_cases hc : a.createdAt ≤ b.createdAt <;> simp [hc]

/-- pickOldest returns an element of its list. -/
theorem pickOldest_mem : ∀ (l : List QJob) (j : QJob), pickOldest l = some j → j ∈ l := by
  intro l
  induction l with
  | nil => intro j h; simp [pickOldest] at h
  | cons a l ih =>
    intro j h
    simp only [pickOldest] at h
    split at h
    · simp only [Option.some.injEq] at h
      rw [← h]
      exact List.mem_cons_self _ _
    · rename_i b hp
      split at h
      · simp only [Option.some.injEq] at h
        rw [← h]
        exact List.mem_cons_self _ _
      · simp only [Option.some.injEq] at h
        rw [← h]
        exact List.mem_cons_of_mem _ (ih b hp)

/-- pickOldest returns a minimal created_at. -/
theorem pickOldest_min : ∀ (l : List QJob) (j : QJob), pickOldest l = some j →
    ∀ b ∈ l, j.createdAt ≤ b.createdAt := by
  intro l
  induction l with
  | nil => intro j h; simp [pickOldest] at h
  | cons a l ih =>
    intro j h x hx
    simp only [pickOldest] at h
    split at h
    · rename_i hp
      simp only [Option.some.injEq] at h
      have hl : l = [] := (pickOldest_eq_none l).mp hp
      subst hl
      rcases List.mem_cons.mp hx with rfl | hx2
      · rw [← h]
      · simp at hx2
    · rename_i b hp
      split at h
      · rename_i hc
        simp only [Option.some.injEq] at h
        rw [← h]
        rcases List.mem_cons.mp hx with rfl | hx2
        · exact le_refl _
        · exact le_trans hc (ih b hp x hx2)
      · rename_i hc
        simp only [Option.some.injEq] at h
        rw [← h]
        rcases List.mem_cons.mp hx with rfl | hx2
        · omega
        · exact ih b hp x hx2

/-- Specification of the locking select: the returned row is pending,
unlocked, and oldest among the pending unlocked rows. -/
theorem selectSkipLocked_spec (s : DBState) (j : QJob)
    (h : selectForUpdateSkipLocked s = some j) :
    j ∈ s.jobs ∧ j.status = JobStatus.pending ∧ j.id ∉ s.locked
    ∧ ∀ j2 ∈ s.jobs, j2.status = JobStatus.pending → j2.id ∉ s.locked →
        j.createdAt ≤ j2.createdAt := by
  unfold selectForUpdateSkipLocked at h
  have hmem := pickOldest_mem _ _ h
  have hmin := pickOldest_min _ _ h
  have h1 := List.mem_of_mem_filter hmem
  have h2 := List.of_mem_filter hmem
  unfold claimCandidate at h2
  simp only [Bool.and_eq_true, beq_iff_eq, Bool.not_eq_true'] at h2
  have h2b : j.id ∉ s.locked := by simpa using h2.2
  refine ⟨h1, h2.1, h2b, ?_⟩
  intro j2 hj2 hst hlock
  apply hmin
  apply List.mem_filter.mpr
  refine ⟨hj2, ?_⟩
  unfold claimCandidate
  simp [hst, hlock]

/-- A successful get? index is in range. -/
theorem get?_lt_length {α : Type} (l : List α) (w : Nat) (x : α)
    (h : l.get? w = some x) : w < l.length := by
  by_contra hc
  rw [List.get?_eq_none.mpr (by omega)] at h
  exact Option.noConfusion h

/-- get? after set, in both the hit and miss cases. -/
theorem workers_set_get? {α : Type} (ws : List α) (w : Nat) (ph : α)
    (hw : w < ws.length) (i : Nat) :
    (ws.set w ph).get? i = if i = w then some ph else ws.get? i := by
  by_cases hi : i = w
  · subst hi
    rw [if_pos rfl]
    exact List.get?_set_eq_of_lt _ hw
  · rw [if_neg hi]
    exact List.get?_set_ne _ _ (Ne.symm hi)

/-- A claimed id comes from a holding or a successfully done worker. -/
theorem claimAt_eq_cases (s : PoolState) (k n : Nat) (h : claimAt s k = some n) :
    s.workers.get? k = some (WorkerPhase.holding n)
    ∨ s.workers.get? k = some (WorkerPhase.done (some n)) := by
  unfold claimAt at h
  cases hg : s.workers.get? k with
  | none => rw [hg] at h; exact Option.noConfusion h
  | some ph =>
    rw [hg] at h
    cases ph with
    | idle => exact Option.noConfusion h
    | holding j2 =>
      left
      have : j2 = n := by
        simpa [workerClaim] using h
      rw [this]
    | done r =>
      right
      cases r with
      | none => exact Option.noConfusion h
      | some m =>
        have : m = n := by
          simpa [workerClaim] using h
        rw [this]

/-- Committing the claimed row does not change the id column. -/
theorem commitDownloading_map_id (jobs : List QJob) (jid : Nat) (now : Nat) :
    (commitDownloading jobs jid now).map QJob.id = jobs.map QJob.id := by
  unfold commitDownloading
  induction jobs with
  | nil => rfl
  | cons a l ih =>
    simp only [List.map_cons, ih]
    by_cases h : a.id = jid <;> simp [h]

/-- Every committed row with the claimed id is downloading with the
commit timestamp. -/
theorem commitDownloading_hit (jobs : List QJob) (jid : Nat) (now : Nat) :
    ∀ j ∈ commitDownloading jobs jid now, j.id = jid →
      j.status = JobStatus.downloading ∧ j.updatedAt = now := by
  intro j hj hid
  unfold commitDownloading at hj
  obtain ⟨j0, hj0, rfl⟩ := List.mem_map.mp hj
  by_cases h : j0.id = jid
  · simp [h]
  · rw [if_neg h] at hid ⊢
    exact absurd hid h

/-- Rows other than the claimed one are unchanged by the commit. -/
theorem commitDownloading_miss (jobs : List QJob) (jid : Nat) (now : Nat) :
    ∀ j ∈ jobs, j.id ≠ jid → j ∈ commitDownloading jobs jid now := by
  intro j hj hne
  unfold commitDownloading
  have : (if j.id = jid
      then { j with status := JobStatus.downloading, updatedAt := now } else j) = j := by
    rw [if_neg hne]
  rw [← this]
  exact List.mem_map_of_mem _ hj

/-- The claimed row itself is committed as downloading. -/
theorem commitDownloading_claimed (jobs : List QJob) (jid : Nat) (now : Nat) :
    ∀ j ∈ jobs, j.id = jid →
      ({ j with status := JobStatus.downloading, updatedAt := now } : QJob)
        ∈ commitDownloading jobs jid now := by
  intro j hj hid
  unfold commitDownloading
  have : (if j.id = jid
      then { j with status := JobStatus.downloading, updatedAt := now } else j)
      = { j with status := JobStatus.downloading, updatedAt := now } := by
    rw [if_pos hid]
  rw [← this]
  exact List.mem_map_of_mem _ hj

/-- Downloading rows stay downloading, with their id, across a commit. -/
theorem commitDownloading_keeps_downloading (jobs : List QJob) (jid : Nat) (now : Nat) :
    ∀ j ∈ jobs, j.status = JobStatus.downloading →
      ∃ j2 ∈ commitDownloading jobs jid now,
        j2.id = j.id ∧ j2.status = JobStatus.downloading := by
  intro j hj hst
  by_cases h : j.id = jid
  · exact ⟨{ j with status := JobStatus.downloading, updatedAt := now },
      commitDownloading_claimed jobs jid now j hj h, rfl, rfl⟩
  · exact ⟨j, commitDownloading_miss jobs jid now j hj h, rfl, hst⟩

/-- Invariant preservation when an idle worker finds no claimable row. -/
theorem poolInv_done_none (s : PoolState) (w : Nat)
    (hw : s.workers.get? w = some WorkerPhase.idle)
    (h : PoolInv s) :
    PoolInv { s with workers := s.workers.set w (WorkerPhase.done none),
                     clock := s.clock + 1 } := by
  obtain ⟨hnd, hdist, hhold, hdone⟩ := h
  have hwlt := get?_lt_length _ _ _ hw
  have hget := workers_set_get? s.workers w (WorkerPhase.done none) hwlt
  have hclaim : ∀ i,
      claimAt { s with workers := s.workers.set w (WorkerPhase.done none),
                       clock := s.clock + 1 } i = claimAt s i := by
    intro i
    show ((s.workers.set w (WorkerPhase.done none)).get? i).bind workerClaim = _
    rw [hget i]
    by_cases hi : i = w
    · rw [if_pos hi, hi]
      show (some (WorkerPhase.done none)).bind workerClaim
          = (s.workers.get? w).bind workerClaim
      rw [hw]
      rfl
    · rw [if_neg hi]
      rfl
  refine ⟨hnd, ?_, ?_, ?_⟩
  · intro i k n hik h1
    rw [hclaim i] at h1
    rw [hclaim k]
    exact hdist i k n hik h1
  · intro i jid hi
    have hi2 : (s.workers.set w (WorkerPhase.done none)).get? i
        = some (WorkerPhase.holding jid) := hi
    rw [hget i] at hi2
    by_cases hiw : i = w
    · rw [if_pos hiw] at hi2
      simp at hi2
    · rw [if_neg hiw] at hi2
      exact hhold i jid hi2
  · intro i jid hi
    have hi2 : (s.workers.set w (WorkerPhase.done none)).get? i
        = some (WorkerPhase.done (some jid)) := hi
    rw [hget i] at hi2
    by_cases hiw : i = w
    · rw [if_pos hiw] at hi2
      simp at hi2
    · rw [if_neg hiw] at hi2
      exact hdone i jid hi2

/-- Invariant preservation when an idle worker selects and locks a row. -/
theorem poolInv_select (s : PoolState) (w : Nat) (j : QJob)
    (hw : s.workers.get? w = some WorkerPhase.idle)
    (hsel : selectForUpdateSkipLocked s.db = some j)
    (h : PoolInv s) :
    PoolInv { db := { jobs := s.db.jobs, locked := j.id :: s.db.locked }
              workers := s.workers.set w (WorkerPhase.holding j.id)
              clock := s.clock + 1 } := by
  obtain ⟨hnd, hdist, hhold, hdone⟩ := h
  obtain ⟨hjmem, hjpend, hjunlock, _⟩ := selectSkipLocked_spec s.db j hsel
  have hwlt := get?_lt_length _ _ _ hw
  have hget := workers_set_get? s.workers w (WorkerPhase.holding j.id) hwlt
  have hfresh : ∀ k, k ≠ w → claimAt s k ≠ some j.id := by
    intro k _ hk
    rcases claimAt_eq_cases s k j.id hk with hg | hg
    · exact hjunlock (hhold k j.id hg).1
    · obtain ⟨j2, hj2, hj2id, hj2st⟩ := hdone k j.id hg
      have hEq : j2 = j := List.inj_on_of_nodup_map hnd hj2 hjmem (by rw [hj2id])
      rw [hEq, hjpend] at hj2st
      exact JobStatus.noConfusion hj2st
  have hclaim : ∀ i,
      claimAt { db := { jobs := s.db.jobs, locked := j.id :: s.db.locked }
                workers := s.workers.set w (WorkerPhase.holding j.id)
                clock := s.clock + 1 } i
        = if i = w then some j.id else claimAt s i := by
    intro i
    show ((s.workers.set w (WorkerPhase.holding j.id)).get? i).bind workerClaim = _
    rw [hget i]
    by_cases hi : i = w
    · rw [if_pos hi, if_pos hi]
      rfl
    · rw [if_neg hi, if_neg hi]
      rfl
  refine ⟨hnd, ?_, ?_, ?_⟩
  · intro i k n hik h1
    rw [hclaim i] at h1
    rw [hclaim k]
    by_cases hiw : i = w
    · rw [if_pos hiw] at h1
      obtain rfl : j.id = n := (Option.some.injEq _ _).mp h1
      by_cases hkw : k = w
      · exact absurd (hiw.trans hkw.symm) hik
      · rw [if_neg hkw]
        exact hfresh k hkw
    · rw [if_neg hiw] at h1
      by_cases hkw : k = w
      · rw [if_pos hkw]
        intro hk
        obtain rfl : j.id = n := (Option.some.injEq _ _).mp hk
        exact hfresh i hiw h1
      · rw [if_neg hkw]
        exact hdist i k n hik h1
  · intro i jid hi
    have hi2 : (s.workers.set w (WorkerPhase.holding j.id)).get? i
        = some (WorkerPhase.holding jid) := hi
    rw [hget i] at hi2
    by_cases hiw : i = w
    · rw [if_pos hiw] at hi2
      have hEq : j.id = jid := by simpa using hi2
      rw [← hEq]
      exact ⟨List.mem_cons_self _ _, j, hjmem, rfl, hjpend⟩
    · rw [if_neg hiw] at hi2
      obtain ⟨hl, j2, hj2, hj2id, hj2st⟩ := hhold i jid hi2
      exact ⟨List.mem_cons_of_mem _ hl, j2, hj2, hj2id, hj2st⟩
  · intro i jid hi
    have hi2 : (s.workers.set w (WorkerPhase.holding j.id)).get? i
        = some (WorkerPhase.done (some jid)) := hi
    rw [hget i] at hi2
    by_cases hiw : i = w
    · rw [if_pos hiw] at hi2
      simp at hi2
    · rw [if_neg hiw] at hi2
      exact hdone i jid hi2

/-- Invariant preservation when a holding worker commits its claim. -/
theorem poolInv_commit (s : PoolState) (w jid : Nat)
    (hw : s.workers.get? w = some (WorkerPhase.holding jid))
    (h : PoolInv s) :
    PoolInv { db := { jobs := commitDownloading s.db.jobs jid s.clock
                      locked := s.db.locked.erase jid }
              workers := s.workers.set w (WorkerPhase.done (some jid))
              clock := s.clock + 1 } := by
  obtain ⟨hnd, hdist, hhold, hdone⟩ := h
  obtain ⟨hjl, jrow, hjrow, hjid, hjpend⟩ := hhold w jid hw
  have hwlt := get?_lt_length _ _ _ hw
  have hget := workers_set_get? s.workers w (WorkerPhase.done (some jid)) hwlt
  have hclaim : ∀ i,
      claimAt { db := { jobs := commitDownloading s.db.jobs jid s.clock
                        locked := s.db.locked.erase jid }
                workers := s.workers.set w (WorkerPhase.done (some jid))
                clock := s.clock + 1 } i
        = claimAt s i := by
    intro i
    show ((s.workers.set w (WorkerPhase.done (some jid))).get? i).bind workerClaim = _
    rw [hget i]
    by_cases hi : i = w
    · rw [if_pos hi, hi]
      show (some (WorkerPhase.done (some jid))).bind workerClaim
          = (s.workers.get? w).bind workerClaim
      rw [hw]
      rfl
    · rw [if_neg hi]
      rfl
  refine ⟨?_, ?_, ?_, ?_⟩
  · show ((commitDownloading s.db.jobs jid s.clock).map QJob.id).Nodup
    rw [commitDownloading_map_id]
    exact hnd
  · intro i k n hik h1
    rw [hclaim i] at h1
    rw [hclaim k]
    exact hdist i k n hik h1
  · intro i jid2 hi
    have hi2 : (s.workers.set w (WorkerPhase.done (some jid))).get? i
        = some (WorkerPhase.holding jid2) := hi
    rw [hget i] at hi2
    by_cases hiw : i = w
    · rw [if_pos hiw] at hi2
      simp at hi2
    · rw [if_neg hiw] at hi2
      obtain ⟨hl, j2, hj2, hj2id, hj2st⟩ := hhold i jid2 hi2
      have hne2 : jid2 ≠ jid := by
        intro hEq
        have hci : claimAt s i = some jid2 := by
          unfold claimAt
          rw [hi2]
          rfl
        have hcw : claimAt s w = some jid := by
          unfold claimAt
          rw [hw]
          rfl
        exact hdist i w jid2 hiw hci (by rw [hEq]; exact hcw)
      refine ⟨(List.mem_erase_of_ne hne2).mpr hl,
        j2, commitDownloading_miss _ _ _ j2 hj2 (by rw [hj2id]; exact hne2),
        hj2id, hj2st⟩
  · intro i jid2 hi
    have hi2 : (s.workers.set w (WorkerPhase.done (some jid))).get? i
        = some (WorkerPhase.done (some jid2)) := hi
    rw [hget i] at hi2
    by_cases hiw : i = w
    · rw [if_pos hiw] at hi2
      have hEq : jid = jid2 := by simpa using hi2
      rw [← hEq]
      exact ⟨{ jrow with status := JobStatus.downloading, updatedAt := s.clock },
        commitDownloading_claimed _ _ _ jrow hjrow hjid, hjid, rfl⟩
    · rw [if_neg hiw] at hi2
      obtain ⟨j2, hj2, hj2id, hj2st⟩ := hdone i jid2 hi2
      obtain ⟨j3, hj3, hj3id, hj3st⟩ :=
        commitDownloading_keeps_downloading s.db.jobs jid s.clock j2 hj2 hj2st
      exact ⟨j3, hj3, by rw [hj3id, hj2id], hj3st⟩

/-- One scheduler step preserves the pool invariant. -/
theorem poolStep_inv (s : PoolState) (w : Nat) (h : PoolInv s) :
    PoolInv (poolStep s w) := by
  cases hw : s.workers.get? w with
  | none =>
    simp only [poolStep, hw]
    exact ⟨h.1, h.2.1, h.2.2.1, h.2.2.2⟩
  | some ph =>
    cases ph with
    | idle =>
      cases hsel : selectForUpdateSkipLocked s.db with
      | none =>
        simp only [poolStep, hw, hsel]
        exact poolInv_done_none s w hw h
      | some j =>
        simp only [poolStep, hw, hsel]
        exact poolInv_select s w j hw hsel h
    | holding jid =>
      simp only [poolStep, hw]
      exact poolInv_commit s w jid hw h
    | done r =>
      simp only [poolStep, hw]
      exact ⟨h.1, h.2.1, h.2.2.1, h.2.2.2⟩

/-- Every schedule preserves the pool invariant. -/
theorem poolRun_inv (s : PoolState) (sched : List Nat) (h : PoolInv s) :
    PoolInv (poolRun s sched) := by
  induction sched generalizing s with
  | nil => exact h
  | cons w ws ih => exact ih (poolStep s w) (poolStep_inv s w h)

/-- The initial pool satisfies the invariant when row ids are unique. -/
theorem initPool_inv (jobs : List QJob) (workerCount : Nat)
    (hnd : (jobs.map QJob.id).Nodup) : PoolInv (initPool jobs workerCount) := by
  refine ⟨hnd, ?_, ?_, ?_⟩
  · intro i k n _ h1
    exfalso
    have h1b : ((List.replicate workerCount WorkerPhase.idle).get? i).bind workerClaim
        = some n := h1
    cases hg : (List.replicate workerCount WorkerPhase.idle).get? i with
    | none => rw [hg] at h1b; exact Option.noConfusion h1b
    | some ph =>
      rw [hg] at h1b
      have hEq : ph = WorkerPhase.idle := List.eq_of_mem_replicate (List.get?_mem hg)
      rw [hEq] at h1b
      exact Option.noConfusion h1b
  · intro i jid hi
    have hi2 : (List.replicate workerCount WorkerPhase.idle).get? i
        = some (WorkerPhase.holding jid) := hi
    have hEq := List.eq_of_mem_replicate (List.get?_mem hi2)
    exact WorkerPhase.noConfusion hEq
  · intro i jid hi
    have hi2 : (List.replicate workerCount WorkerPhase.idle).get? i
        = some (WorkerPhase.done (some jid)) := hi
    have hEq := List.eq_of_mem_replicate (List.get?_mem hi2)
    exact WorkerPhase.noConfusion hEq

/-- C3: claim exclusivity and atomicity.  Over every interleaving of
workers running the two-phase claim transaction (locking select, then
commit) from unique pending rows: no two workers ever claim the same
job; every committed claim left its row DOWNLOADING; the locking select
returns a pending, unlocked row of minimal created_at, skipping locked
rows; and the commit of a held row sets exactly that row to DOWNLOADING
with updated_at = now. -/
theorem C3_claim_exclusivity :
    (∀ (jobs : List QJob) (workerCount : Nat) (sched : List Nat),
      (jobs.map QJob.id).Nodup →
      (∀ i k n, i ≠ k →
        claimAt (poolRun (initPool jobs workerCount) sched) i = some n →
        claimAt (poolRun (initPool jobs workerCount) sched) k ≠ some n)
      ∧ (∀ i n, (poolRun (initPool jobs workerCount) sched).workers.get? i
            = some (WorkerPhase.done (some n)) →
          ∃ j ∈ (poolRun (initPool jobs workerCount) sched).db.jobs,
            j.id = n ∧ j.status = JobStatus.downloading))
    ∧ (∀ (s : DBState) (j : QJob), selectForUpdateSkipLocked s = some j →
        j ∈ s.jobs ∧ j.status = JobStatus.pending ∧ j.id ∉ s.locked
        ∧ ∀ j2 ∈ s.jobs, j2.status = JobStatus.pending → j2.id ∉ s.locked →
            j.createdAt ≤ j2.createdAt)
    ∧ (∀ (s : PoolState) (w jid : Nat),
        s.workers.get? w = some (WorkerPhase.holding jid) →
        ∀ j ∈ (poolStep s w).db.jobs, j.id = jid →
          j.status = JobStatus.downloading ∧ j.updatedAt = s.clock) := by
  refine ⟨?_, ?_, ?_⟩
  · intro jobs workerCount sched hnd
    have hinv := poolRun_inv (initPool jobs workerCount) sched
      (initPool_inv jobs workerCount hnd)
    exact ⟨hinv.2.1, hinv.2.2.2⟩
  · intro s j h
    exact selectSkipLocked_spec s j h
  · intro s w jid hw j hj hid
    have hj2 : j ∈ commitDownloading s.db.jobs jid s.clock := by
      have hstep : (poolStep s w).db.jobs = commitDownloading s.db.jobs jid s.clock := by
        simp only [poolStep, hw]
      rw [hstep] at hj
      exact hj
    exact commitDownloading_hit s.db.jobs jid s.clock j hj2 hid

/-- C3 witness: the claim theorem applied to two pending rows and the
schedule where two workers interleave select and commit; worker 1 does
not receive the job claimed by worker 0. -/
theorem C3_claim_exclusivity_witness :
    claimAt (poolRun (initPool qjobsTwo 2) [0, 1, 0, 1]) 1 ≠ some 1 :=
  (C3_claim_exclusivity.1 qjobsTwo 2 [0, 1, 0, 1] (by decide)).1 0 1 1
    (by decide) (by decide)
